import Mathlib

/-!
# Verification of the machiavelli card-game engine

Shallow embedding of the repository's Rust sources (`sequence_cards.rs`,
`lib.rs`, `lib_server.rs`) together with proofs about the embedded
definitions.  Machine integers (`u8`, `u16`, `usize`) are modelled as `Nat`;
explicit `% 256` / `% 65536` truncations are inserted exactly where the
source performs an `as u8` / `as u16` cast.  Fallible or panicking code is
modelled with `Option` (`none` = the source panics / aborts).

The files `table.rs`, `sort.rs` and `encode.rs` belong to the repository but
are not among the provided sources; the few definitions taken from them are
modelled from the specification and marked `Modelled from the spec:` in
their doc comments.
-/

/-- The `static MAX_VAL: u8 = 13` from `sequence_cards.rs`. -/
def MAX_VAL : Nat := 13

/-- The `Suit` enum from `sequence_cards.rs`. -/
inductive Suit
| Heart
| Diamond
| Club
| Spade
deriving DecidableEq, Repr

open Suit

/-- The `Card` enum from `sequence_cards.rs`: a regular card is a suit plus a
rank (`u8` in the source, here `Nat`), a Joker carries no data. -/
inductive Card
| RegularCard (suit : Suit) (val : Nat)
| Joker
deriving DecidableEq, Repr

open Card

/-- The `suit_to_int` from `sequence_cards.rs`. -/
def suit_to_int (suit : Suit) : Nat :=
  match suit with
  | Heart => 1
  | Diamond => 2
  | Club => 3
  | Spade => 4

/-- The `Sequence` tuple struct from `sequence_cards.rs`: a vector of cards. -/
structure Sequence where
  cards : List Card
deriving DecidableEq, Repr

namespace Sequence

/-- The `Sequence::new` from `sequence_cards.rs`. -/
def new : Sequence := ⟨[]⟩

/-- The `Sequence::from_cards` from `sequence_cards.rs`. -/
def from_cards (cards : List Card) : Sequence := ⟨cards⟩

/-- The `Sequence::number_cards` from `sequence_cards.rs`. -/
def number_cards (s : Sequence) : Nat := s.cards.length

/-- The `Sequence::add_card` from `sequence_cards.rs`: push at the tail. -/
def add_card (s : Sequence) (c : Card) : Sequence := ⟨s.cards ++ [c]⟩

/-- The `Sequence::draw_card` from `sequence_cards.rs`: `Vec::pop`, i.e. remove
the last card; `none` when the sequence is empty.  The removed card and the
remaining sequence are returned (the source mutates in place). -/
def draw_card (s : Sequence) : Option (Card × Sequence) :=
  match s.cards.getLast? with
  | none => none
  | some c => some (c, ⟨s.cards.dropLast⟩)

/-- The `Sequence::take_card` from `sequence_cards.rs`: 1-indexed removal from an
arbitrary position; `none` when `i` is outside `[1, len]`. -/
def take_card (s : Sequence) (i : Nat) : Option (Card × Sequence) :=
  if h : 0 < i ∧ i ≤ s.cards.length then
    some (s.cards.get ⟨i - 1, by omega⟩, ⟨s.cards.eraseIdx (i - 1)⟩)
  else
    none

/-- The `Sequence::merge` from `sequence_cards.rs`.  The source repeatedly
`draw_card`s from `seq`'s tail and `add_card`s into `self`; the net effect of
that loop is appending `seq` in reverse order. -/
def merge (s seq : Sequence) : Sequence := ⟨s.cards ++ seq.cards.reverse⟩

/-- The `Sequence::contains_joker` from `sequence_cards.rs`. -/
def contains_joker (s : Sequence) : Bool := s.cards.any (· == Joker)

/-- The `Sequence::count_cards` from `sequence_cards.rs`, which builds the
multiplicity map of the sequence (a `HashMap<Card, u16>` in the source);
here the map is represented by its lookup function. -/
def count_cards (s : Sequence) (c : Card) : Nat := s.cards.count c

/-- The `Sequence::contains` from `sequence_cards.rs`: for every card value of
`seq`, its multiplicity in `self` must be at least its multiplicity in
`seq`.  The source iterates over the distinct keys of `seq`'s multiplicity
map; iterating over all elements of `seq` performs the same checks. -/
def contains (s seq : Sequence) : Bool :=
  seq.cards.all (fun c => seq.count_cards c ≤ s.count_cards c)

end Sequence

/-- The loop of `Sequence::is_valid_sequence_same_suit` from
`sequence_cards.rs`.  State: `cs` = `common_suit`, `cv` = `current_value`
(`0` is the source's not-yet-initialised sentinel). -/
def isValidSameSuitAux : Suit → Nat → List Card → Bool
  | _, _, [] => true
  | cs, cv, RegularCard suit val :: rest =>
    if cv = 0 then
      isValidSameSuitAux suit val rest
    else if suit ≠ cs ∨ (val ≠ cv + 1 ∧ (cv < MAX_VAL ∨ val ≠ 1)) then
      false
    else
      isValidSameSuitAux cs (cv + 1) rest
  | cs, cv, Joker :: rest =>
    if cv > 0 then
      isValidSameSuitAux cs (cv + 1) rest
    else
      isValidSameSuitAux cs cv rest

/-- The `Sequence::is_valid_sequence_same_suit` from `sequence_cards.rs`
(`common_suit` starts as `Club`, `current_value` as `0`). -/
def Sequence.is_valid_sequence_same_suit (s : Sequence) : Bool :=
  isValidSameSuitAux Club 0 s.cards

/-- The loop of `Sequence::is_valid_sequence_same_val` from
`sequence_cards.rs`.  State: `suits` = `suits_in_seq`, `cv` =
`common_value` (`0` = not yet initialised). -/
def isValidSameValAux : List Suit → Nat → List Card → Bool
  | _, _, [] => true
  | suits, cv, RegularCard suit val :: rest =>
    if cv = 0 then
      isValidSameValAux (suits ++ [suit]) val rest
    else if suits.contains suit ∨ val ≠ cv then
      false
    else
      isValidSameValAux (suits ++ [suit]) cv rest
  | suits, cv, Joker :: rest => isValidSameValAux suits cv rest

/-- The `Sequence::is_valid_sequence_same_val` from `sequence_cards.rs`. -/
def Sequence.is_valid_sequence_same_val (s : Sequence) : Bool :=
  isValidSameValAux [] 0 s.cards

/-- The `Sequence::is_valid` from `sequence_cards.rs`. -/
def Sequence.is_valid (s : Sequence) : Bool :=
  if s.cards.length < 3 then false
  else if s.is_valid_sequence_same_suit then true
  else if s.is_valid_sequence_same_val then true
  else false

/-- The `value_card_by_suit` from `sequence_cards.rs`. -/
def value_card_by_suit (card : Card) : Nat :=
  match card with
  | Joker => 255
  | RegularCard suit val => (MAX_VAL + 1) * suit_to_int suit + val

/-- The `value_card_by_rank` from `sequence_cards.rs`. -/
def value_card_by_rank (card : Card) : Nat :=
  match card with
  | Joker => 255
  | RegularCard suit val => 4 * val + suit_to_int suit

/-- Modelled from the spec: the `sort` function from the repository's
`sort.rs`, which is not among the provided sources.  §4.1: a stable sort by
a derived key (here a stable insertion sort). -/
def stableInsert (key : Card → Nat) (c : Card) : List Card → List Card
  | [] => [c]
  | d :: rest =>
    if key c < key d then c :: d :: rest else d :: stableInsert key c rest

/-- Modelled from the spec: stable sort by a derived key (see
`stableInsert`). -/
def stableSortBy (key : Card → Nat) : List Card → List Card
  | [] => []
  | c :: rest => stableInsert key c (stableSortBy key rest)

/-- The `Sequence::sort_by_rank` from `sequence_cards.rs` (the underlying `sort`
is modelled from the spec). -/
def Sequence.sort_by_rank (s : Sequence) : Sequence :=
  ⟨stableSortBy value_card_by_rank s.cards⟩

/-- The `Sequence::sort_by_suit` from `sequence_cards.rs` (the underlying `sort`
is modelled from the spec). -/
def Sequence.sort_by_suit (s : Sequence) : Sequence :=
  ⟨stableSortBy value_card_by_suit s.cards⟩

example : Sequence.is_valid ⟨[RegularCard Club 13, RegularCard Club 1, RegularCard Club 1]⟩ = true := by decide

example : Sequence.is_valid ⟨[Joker, Joker, Joker]⟩ = true := by decide

example : Sequence.is_valid ⟨[RegularCard Club 13, RegularCard Club 1, RegularCard Club 2]⟩ = false := by decide

example : Sequence.is_valid ⟨[RegularCard Heart 1, Joker, RegularCard Heart 3]⟩ = true := by decide

example : Sequence.is_valid ⟨[RegularCard Heart 2, Joker, RegularCard Heart 2]⟩ = false := by decide

example : Sequence.contains ⟨[Joker, Joker]⟩ ⟨[Joker]⟩ = true := by decide

example : Sequence.contains ⟨[Joker]⟩ ⟨[Joker, Joker]⟩ = false := by decide

/-- Modelled from the spec: the `Table` type from the repository's
`table.rs`, which is not among the provided sources.  §4.2: an ordered
collection of melds (validated `Sequence`s). -/
structure Table where
  melds : List Sequence
deriving DecidableEq, Repr

/-- Modelled from the spec: `Table::add` from `table.rs` appends a
pre-validated meld, without re-validating. -/
def Table.add (t : Table) (s : Sequence) : Table := ⟨t.melds ++ [s]⟩

/-- Modelled from the spec: `Table::take` from `table.rs`, a 1-indexed
removal and return of a whole meld, not-found (`none`) when out of range. -/
def Table.take (t : Table) (i : Nat) : Option (Sequence × Table) :=
  if h : 0 < i ∧ i ≤ t.melds.length then
    some (t.melds.get ⟨i - 1, by omega⟩, ⟨t.melds.eraseIdx (i - 1)⟩)
  else
    none

/-- Modelled from the spec: the card encoding of `encode.rs`, which is not
among the provided sources.  §4.4: a card is 2 bytes, byte0 `0` = Joker and
`1..4` = the suit id of `suit_to_int`, byte1 the rank (ignored for a
Joker).  The rank byte is the `u8` value of the rank. -/
def Card.to_bytes (c : Card) : List Nat :=
  match c with
  | Joker => [0, 0]
  | RegularCard suit val => [suit_to_int suit, val % 256]

/-- Modelled from the spec: decoding of one 2-byte card (see
`Card.to_bytes`); byte0 values other than `1..4` decode as a Joker. -/
def card_from_bytes (b0 b1 : Nat) : Card :=
  match b0 with
  | 1 => RegularCard Heart b1
  | 2 => RegularCard Diamond b1
  | 3 => RegularCard Club b1
  | 4 => RegularCard Spade b1
  | _ => Joker

/-- Modelled from the spec: `Sequence::to_bytes` from `encode.rs`; §4.4: the
concatenation of the 2-byte card encodings, with no length prefix. -/
def Sequence.to_bytes (s : Sequence) : List Nat :=
  s.cards.flatMap Card.to_bytes

/-- Modelled from the spec: the decoding loop behind `Sequence::from_bytes`
from `encode.rs`: consume the byte range two bytes at a time. -/
def seqFromBytesAux : List Nat → List Card
  | b0 :: b1 :: rest => card_from_bytes b0 b1 :: seqFromBytesAux rest
  | _ => []

/-- Modelled from the spec: `Sequence::from_bytes` from `encode.rs`. -/
def Sequence.from_bytes (bytes : List Nat) : Sequence := ⟨seqFromBytesAux bytes⟩

/-- Modelled from the spec: `Table::to_bytes` from `encode.rs`; §4.2: the
concatenation of the melds' card bytes, each meld preceded by a 1-byte card
count. -/
def Table.to_bytes (t : Table) : List Nat :=
  t.melds.flatMap (fun m => m.cards.length % 256 :: m.to_bytes)

/-- Modelled from the spec: the decoding loop behind `Table::from_bytes`
from `encode.rs`: melds are consumed until the supplied byte range is
exhausted. -/
def tableFromBytesAux : List Nat → List Sequence
  | [] => []
  | n :: rest =>
    Sequence.from_bytes (rest.take (2 * n)) :: tableFromBytesAux (rest.drop (2 * n))
termination_by l => l.length
decreasing_by
  simp only [List.length_drop, List.length_cons]
  omega

/-- Modelled from the spec: `Table::from_bytes` from `encode.rs`. -/
def Table.from_bytes (bytes : List Nat) : Table := ⟨tableFromBytesAux bytes⟩

/-- The `Config` struct from `lib.rs`.  The fields are `u8`, `u8`, `u16`,
`bool`, `u8` in the source; the numeric fields are modelled as `Nat`, the
theorems carry the corresponding range hypotheses. -/
structure Config where
  n_decks : Nat
  n_jokers : Nat
  n_cards_to_start : Nat
  custom_rule_jokers : Bool
  n_players : Nat
deriving DecidableEq, Repr

/-- The `Config::to_bytes` from `lib.rs`: `n_cards_to_start >> 8` and
`n_cards_to_start & 255` are the high and low byte of the `u16` field. -/
def Config.to_bytes (c : Config) : List Nat :=
  [c.n_decks,
   c.n_jokers,
   c.n_cards_to_start / 256,
   c.n_cards_to_start % 256,
   if c.custom_rule_jokers then 1 else 0,
   c.n_players]

/-- The `Config::from_bytes` from `lib.rs`.  The source indexes `bytes[0]` to
`bytes[5]` (it is only applied to slices of at least 6 bytes); out-of-range
indices default to `0` here. -/
def Config.from_bytes (bytes : List Nat) : Config :=
  { n_decks := bytes.getD 0 0,
    n_jokers := bytes.getD 1 0,
    n_cards_to_start := bytes.getD 2 0 * 256 + bytes.getD 3 0,
    custom_rule_jokers := bytes.getD 4 0 ≠ 0,
    n_players := bytes.getD 5 0 }

/-- The `game_to_bytes` from `lib.rs`.  Player names are modelled as byte lists
(the source takes `String`s and serialises their UTF-8 bytes).  `hands` and
`player_names` are indexed by the source with `hands[i_player]`; a too-short
vector (which would panic in the source, and is excluded by the theorems'
well-formedness hypotheses) defaults to an empty hand / name here. -/
def game_to_bytes (player : Nat) (table : Table) (hands : List Sequence)
    (deck : Sequence) (config : Config) (player_names : List (List Nat)) :
    List Nat :=
  config.to_bytes
    ++ [player]
    ++ (List.range config.n_players).flatMap (fun i =>
        let n := (hands.getD i Sequence.new).number_cards % 65536
        n / 256 :: n % 256 :: (hands.getD i Sequence.new).to_bytes)
    ++ (List.range config.n_players).flatMap (fun i =>
        (player_names.getD i []).length % 256 :: player_names.getD i [])
    ++ (deck.number_cards / 256) % 256 :: deck.number_cards % 256
        :: deck.to_bytes
    ++ table.to_bytes

/-- Bounds-checked slice `&bytes[i..j]`: the source panics (`none` here)
when the range is out of bounds. -/
def slice? (bytes : List Nat) (i j : Nat) : Option (List Nat) :=
  if i ≤ j ∧ j ≤ bytes.length then some ((bytes.drop i).take (j - i)) else none

/-- The per-player hand-loading loop of `load_game` from `lib.rs`.  For each
player it reads a 2-byte big-endian card count `n` and then passes the
slice `bytes[i..i+n]` to `Sequence::from_bytes` — `n` bytes, although the
`n` cards occupy `2*n` bytes.  Returns the hands and the next byte index;
`none` models an out-of-bounds slice panic. -/
def load_hands : Nat → List Nat → Nat → Option (List Sequence × Nat)
  | 0, _, i => some ([], i)
  | k + 1, bytes, i => do
    let hi ← bytes.get? i
    let lo ← bytes.get? (i + 1)
    let n := hi * 256 + lo
    let hb ← slice? bytes (i + 2) (i + 2 + n)
    let (hands, i') ← load_hands k bytes (i + 2 + n)
    some (Sequence.from_bytes hb :: hands, i')

/-- The per-player name-loading loop of `load_game` from `lib.rs`: a 1-byte
length followed by that many name bytes. -/
def load_names_loop : Nat → List Nat → Nat → Option (List (List Nat) × Nat)
  | 0, _, i => some ([], i)
  | k + 1, bytes, i => do
    let n ← bytes.get? i
    let nb ← slice? bytes (i + 1) (i + 1 + n)
    let (names, i') ← load_names_loop k bytes (i + 1 + n)
    some (nb :: names, i')

/-- The tuple returned by `load_game` in `lib.rs`:
`(Config, u8, Table, Vec<Sequence>, Sequence, Vec<String>)`, with the
fields in the source's order. -/
structure LoadedGame where
  config : Config
  player : Nat
  table : Table
  hands : List Sequence
  deck : Sequence
  player_names : List (List Nat)
deriving DecidableEq, Repr

/-- The `load_game` from `lib.rs`.  `none` models a panic (out-of-bounds slice
or index); the source's `Result` is otherwise always `Ok`. -/
def load_game (bytes : List Nat) : Option LoadedGame := do
  let cfgBytes ← slice? bytes 0 6
  let config := Config.from_bytes cfgBytes
  let player ← bytes.get? 6
  let (hands, i1) ← load_hands config.n_players bytes 7
  let (player_names, i2) ← load_names_loop config.n_players bytes i1
  let hi ← bytes.get? i2
  let lo ← bytes.get? (i2 + 1)
  let n := hi * 256 + lo
  let db ← slice? bytes (i2 + 2) (i2 + 2 + n)
  let deck := Sequence.from_bytes db
  let tb ← slice? bytes (i2 + 2 + n) bytes.length
  let table := Table.from_bytes tb
  some ⟨config, player, table, hands, deck, player_names⟩

example :
    game_to_bytes 0 ⟨[]⟩ [⟨[RegularCard Heart 1]⟩] ⟨[]⟩
      ⟨1, 0, 1, false, 1⟩ [[65]]
    = [1, 0, 0, 1, 0, 1, 0, 0, 1, 1, 1, 1, 65, 0, 0] := by decide

example :
    load_game [1, 0, 0, 1, 0, 1, 0, 0, 1, 1, 1, 1, 65, 0, 0] = none := by decide

example :
    Config.from_bytes (Config.to_bytes ⟨2, 4, 13, false, 2⟩) = ⟨2, 4, 13, false, 2⟩ := by decide

/-- The player-visible messages produced inside `player_turn`,
`play_sequence` and `take_sequence` in `lib.rs`.  The source surfaces plain
strings (presentation is external per §6); each constructor stands for one
of them:
`empty` = `""`,
`cantSaveUncommitted` = "You can't save until you've played all the cards
you've taken from the table!",
`passBeforeSaving` = "You need to pass before saving",
`cantPickUncommitted` = "You can't pick a card until you've played all the
cards you've taken from the table!",
`cantPickAfterPlaying` = "You can't pick a card after having played
something",
`jokersNeedPlay` = "Jokers need to be played!",
`invalidSequence seq` = "{seq} is not a valid sequence!",
`notOnTable` = "This sequence is not on the table",
`parseError` = "Error parsing the input!",
`cantPassUncommitted` = "You can't pass until you've played all the cards
you've taken from the table!",
`needPlaySomething` = "You need to play something to pass". -/
inductive Message
| empty
| cantSaveUncommitted
| passBeforeSaving
| cantPickUncommitted
| cantPickAfterPlaying
| jokersNeedPlay
| invalidSequence (seq : Sequence)
| notOnTable
| parseError
| cantPassUncommitted
| needPlaySomething
deriving DecidableEq, Repr

/-- The game state mutated by one player's turn: the references
`table`, `hand`, `deck` passed to `player_turn` in `lib.rs`. -/
structure TurnState where
  table : Table
  hand : Sequence
  deck : Sequence
deriving DecidableEq, Repr

/-- The `pick_a_card` from `lib.rs`: draw the deck's top (tail) card into the
hand; `none` (`NoMoreCards`) when the deck is empty.  Returns the drawn
card together with the updated hand and deck. -/
def pick_a_card (hand deck : Sequence) : Option (Card × Sequence × Sequence) :=
  match deck.draw_card with
  | none => none
  | some (c, deck') => some (c, hand.add_card c, deck')

/-- The position-resolution loop of `play_sequence` from `lib.rs`.  State:
`hand`, `seq` (the cards collected so far) and `seq_i` (the raw positions
already consumed).  For each parsed position `n`, `n_i` counts the already
consumed positions smaller than `n` and the card at `n - n_i` is moved from
the hand into `seq`; unresolvable positions are skipped.  (`n - n_i` is a
`usize` subtraction in the source: when `n_i > n` the source aborts in a
debug build and indexes far out of range — also taking no card — in a
release build; the truncated `Nat` subtraction likewise takes no card,
since position `0` is always out of range.) -/
def play_loop : Sequence → Sequence → List Nat → List Nat → Sequence × Sequence
  | hand, seq, _, [] => (seq, hand)
  | hand, seq, seq_i, n :: rest =>
    let n_i := (seq_i.filter (· < n)).length
    match hand.take_card (n - n_i) with
    | none => play_loop hand seq seq_i rest
    | some (c, hand') => play_loop hand' (seq.add_card c) (seq_i ++ [n]) rest

/-- The `play_sequence` from `lib.rs`.  The player's input line is modelled by
the list of positions that parse as `usize` (unparseable items are skipped
by the source's `Err(_) => ()` arm).  Returns the message and the updated
hand and table: a valid assembled sequence is added to the table, an
invalid one is merged back into the hand. -/
def play_sequence (hand : Sequence) (table : Table) (positions : List Nat) :
    Message × Sequence × Table :=
  let (seq, hand') := play_loop hand Sequence.new [] positions
  if seq.is_valid then
    (Message.empty, hand', table.add seq)
  else
    (Message.invalidSequence seq, hand'.merge seq, table)

/-- The `take_sequence` from `lib.rs`.  The input is the parsed 1-indexed meld
position (`none` = the input did not parse).  Returns the message and the
updated table and hand. -/
def take_sequence (table : Table) (hand : Sequence) (n : Option Nat) :
    Message × Table × Sequence :=
  match n with
  | none => (Message.parseError, table, hand)
  | some k =>
    match table.take k with
    | some (seq, table') => (Message.empty, table', hand.merge seq)
    | none => (Message.notOnTable, table, hand)

/-- One parsed menu input of the `player_turn` loop in `lib.rs`: the
`u16`-parsed choice, together with the follow-up input consumed by
`play_sequence` (the position list) or `take_sequence` (the parsed meld
index).  `other` covers every other parse result (the `_ => ()` arm). -/
inductive PlayerChoice
| save
| pick
| play (positions : List Nat)
| takeFrom (n : Option Nat)
| pass
| sortRank
| sortSuit
| other
deriving DecidableEq, Repr

/-- The result of one iteration of the `player_turn` loop in `lib.rs`:
either the loop continues with a (possibly empty) message, or the turn is
over — `finished true` is `return true` (save-and-quit), `finished false`
is a `break` leading to `return false` (turn ended, no save). -/
inductive StepResult
| cont (message : Message) (s : TurnState)
| finished (save : Bool) (s : TurnState)
deriving DecidableEq, Repr

/-- One iteration of the `player_turn` loop from `lib.rs`, dispatching on
the parsed menu input exactly as the source's `match` does.
`hand_start_round` is the snapshot cloned at the top of `player_turn`. -/
def player_turn_step (hand_start_round : Sequence) (custom_rule_jokers : Bool)
    (s : TurnState) (choice : PlayerChoice) : StepResult :=
  match choice with
  | PlayerChoice.save =>
    if ¬ hand_start_round.contains s.hand then
      StepResult.cont Message.cantSaveUncommitted s
    else if ¬ s.hand.contains hand_start_round then
      StepResult.cont Message.passBeforeSaving s
    else
      StepResult.finished true s
  | PlayerChoice.pick =>
    if ¬ hand_start_round.contains s.hand then
      StepResult.cont Message.cantPickUncommitted s
    else if ¬ s.hand.contains hand_start_round then
      StepResult.cont Message.cantPickAfterPlaying s
    else if custom_rule_jokers ∧ s.hand.contains_joker then
      StepResult.cont Message.jokersNeedPlay s
    else
      match pick_a_card s.hand s.deck with
      | some (_, hand', deck') =>
        StepResult.finished false { s with hand := hand', deck := deck' }
      | none => StepResult.finished false s
  | PlayerChoice.play positions =>
    let (msg, hand', table') := play_sequence s.hand s.table positions
    StepResult.cont msg { s with hand := hand', table := table' }
  | PlayerChoice.takeFrom n =>
    let (msg, table', hand') := take_sequence s.table s.hand n
    StepResult.cont msg { s with table := table', hand := hand' }
  | PlayerChoice.pass =>
    if ¬ hand_start_round.contains s.hand then
      StepResult.cont Message.cantPassUncommitted s
    else if s.hand.contains hand_start_round then
      StepResult.cont Message.needPlaySomething s
    else if custom_rule_jokers ∧ s.hand.contains_joker then
      StepResult.cont Message.jokersNeedPlay s
    else
      StepResult.finished false s
  | PlayerChoice.sortRank =>
    StepResult.cont Message.empty { s with hand := s.hand.sort_by_rank }
  | PlayerChoice.sortSuit =>
    StepResult.cont Message.empty { s with hand := s.hand.sort_by_suit }
  | PlayerChoice.other => StepResult.cont Message.empty s

/-- The `BUFFER_SIZE` from `lib_server.rs`. -/
def BUFFER_SIZE : Nat := 50

/-- The `MAX_N_BUFFERS` from `lib_server.rs`. -/
def MAX_N_BUFFERS : Nat := 255

/-- The chunk count computed by `send_bytes_to_client` in `lib_server.rs`:
`len / 50`, plus one when the length is not a multiple of 50. -/
def n_buffers_of (len : Nat) : Nat :=
  len / BUFFER_SIZE + (if len % BUFFER_SIZE = 0 then 0 else 1)

/-- The outcome of `send_bytes_to_client` from `lib_server.rs`.
`err` = the too-long-payload `Err` return (nothing written);
`ok count chunks` = the wire output — the count byte followed by the
written chunks — after which the source blocks until one acknowledgment
byte is read; `panic` = the `u8` arithmetic `n_buffers - 1` aborted. -/
inductive SendResult
| err
| panic
| ok (count : Nat) (chunks : List (List Nat))
deriving DecidableEq, Repr

/-- The `send_bytes_to_client` from `lib_server.rs`.  The payload is rejected
when longer than `MAX_N_BUFFERS * BUFFER_SIZE`; otherwise the count byte
`n_buffers` is written, then `n_buffers - 1` full 50-byte chunks, then the
remaining tail chunk.  When `n_buffers = 0` (empty payload) the `u8`
expression `n_buffers - 1` underflows and the call aborts (`panic`) before
any chunk is written. -/
def send_bytes_to_client (bytes : List Nat) : SendResult :=
  if bytes.length > MAX_N_BUFFERS * BUFFER_SIZE then
    SendResult.err
  else
    match n_buffers_of bytes.length with
    | 0 => SendResult.panic
    | m + 1 =>
      SendResult.ok (m + 1)
        ((List.range m).map (fun i => (bytes.drop (i * BUFFER_SIZE)).take BUFFER_SIZE)
          ++ [bytes.drop (m * BUFFER_SIZE)])

/-- The `get_bytes_from_client` from `lib_server.rs`, receiving one
transmission: it reads the count byte `count`, performs `count` reads — in
the synchronous per-blob protocol of §4.5 each read returns one sent chunk
— concatenating them, and then writes one `0` byte as acknowledgment.
Returns the reconstructed payload and the acknowledgment bytes written. -/
def get_bytes_from_client (count : Nat) (chunks : List (List Nat)) :
    List Nat × List Nat :=
  ((chunks.take count).flatten, [0])

/-- One rename step of the double loop in `ensure_names_are_different` from
`lib_server.rs`: when `names[j] == names[i]`, an underscore is appended to
`names[j]` and the change flag is set (the source also notifies client `j`;
names are modelled as character lists).  State: `(player_names, cont)`. -/
def passStep (i j : Nat) (p : List (List Char) × Bool) : List (List Char) × Bool :=
  if p.1.getD j [] = p.1.getD i [] then
    (p.1.set j (p.1.getD j [] ++ ['_']), true)
  else
    p

/-- The index pairs `(i, j)` with `i < j < n` visited, in order, by the
double loop of `ensure_names_are_different`. -/
def passPairs (n : Nat) : List (Nat × Nat) :=
  (List.range n).flatMap (fun i => (List.range' (i + 1) (n - (i + 1))).map (fun j => (i, j)))

/-- One full scan of all pairs — the body of the `while cont` loop of
`ensure_names_are_different` — starting with the flag reset to `false`. -/
def renamePass (names : List (List Char)) : List (List Char) × Bool :=
  (passPairs names.length).foldl (fun p ij => passStep ij.1 ij.2 p) (names, false)

/-- The `while cont` loop of `ensure_names_are_different`, with explicit
fuel; `none` = the fuel ran out before the loop exited. -/
def ensureLoop : Nat → List (List Char) → Option (List (List Char))
  | 0, _ => none
  | fuel + 1, names =>
    let (ns, cont) := renamePass names
    if cont then ensureLoop fuel ns else some ns

/-- The total length of all names. -/
def lenSum (l : List (List Char)) : Nat := (l.map List.length).sum

/-- The `boundSum B n = (B) + (B+1) + ... + (B+n-1)`: an upper bound on
`lenSum` for name lists satisfying `namesInv B` (see below). -/
def boundSum (B : Nat) : Nat → Nat
  | 0 => 0
  | n + 1 => B + boundSum (B + 1) n

/-- The length of the longest name. -/
def maxLen (l : List (List Char)) : Nat := (l.map List.length).foldr max 0

/-- An upper bound used as fuel for `ensureLoop` (one unit per pass; each
renaming pass strictly increases `lenSum`, which `boundSum` bounds). -/
def ensureFuel (names : List (List Char)) : Nat :=
  boundSum (maxLen names) names.length + 1

/-- The `ensure_names_are_different` from `lib_server.rs` (the client streams
only receive notifications and do not influence the names). -/
def ensure_names_are_different (names : List (List Char)) : Option (List (List Char)) :=
  ensureLoop (ensureFuel names) names

example : send_bytes_to_client [] = SendResult.panic := by decide

example :
    send_bytes_to_client [7, 7, 7] = SendResult.ok 1 [[7, 7, 7]] := by decide

example :
    ensure_names_are_different [['a'], ['a'], ['a']]
      = some [['a'], ['a', '_'], ['a', '_', '_']] := by decide

example :
    player_turn_step ⟨[RegularCard Heart 1]⟩ false
      ⟨⟨[]⟩, ⟨[RegularCard Heart 1]⟩, ⟨[RegularCard Spade 9]⟩⟩ PlayerChoice.pick
    = StepResult.finished false
        ⟨⟨[]⟩, ⟨[RegularCard Heart 1, RegularCard Spade 9]⟩, ⟨[]⟩⟩ := by decide

/-- Whether a card is a Joker. -/
def isJoker (c : Card) : Bool :=
  match c with
  | Joker => true
  | RegularCard _ _ => false

/-- The `(suit, rank)` pairs of the non-joker cards of a list, in order. -/
def regulars (cards : List Card) : List (Suit × Nat) :=
  cards.filterMap (fun c =>
    match c with
    | RegularCard suit val => some (suit, val)
    | Joker => none)

/-- Declarative acceptance of the card at offset `k` after a run's first
regular card of suit `su` and rank `r`: a Joker is always accepted, a
regular card must have suit `su` and either the expected rank `r + k + 1`
or — once the expected predecessor rank `r + k` has reached 13 — rank 1
(the wraparound; the code lets this happen repeatedly). -/
def runCardOk (su : Suit) (r k : Nat) (c : Card) : Prop :=
  match c with
  | Joker => True
  | RegularCard su' v => su' = su ∧ (v = r + k + 1 ∨ (13 ≤ r + k ∧ v = 1))

instance (su : Suit) (r k : Nat) (c : Card) : Decidable (runCardOk su r k c) := by
  unfold runCardOk
  cases c <;> infer_instance

/-- Declarative run validity (the amended §3 rule): ignoring a prefix of
Jokers, the first regular card fixes the suit `su` and start rank `r`, and
every later card must satisfy `runCardOk`; a sequence with no regular card
at all is a degenerate run. -/
def runSpec (s : Sequence) : Prop :=
  match s.cards.dropWhile isJoker with
  | [] => True
  | RegularCard su r :: rest => ∀ k, (hk : k < rest.length) → runCardOk su r k (rest.get ⟨k, hk⟩)
  | Joker :: _ => False

instance (s : Sequence) : Decidable (runSpec s) := by
  unfold runSpec
  rcases s.cards.dropWhile isJoker with _ | ⟨_ | _, _⟩ <;> simp only <;> infer_instance

/-- Declarative set validity (§3): all non-joker cards share one rank and
have pairwise-distinct suits; Jokers are unconstrained. -/
def setSpec (s : Sequence) : Prop :=
  ((regulars s.cards).map Prod.fst).Pairwise (· ≠ ·) ∧
    ∀ p ∈ regulars s.cards, ∀ q ∈ regulars s.cards, p.2 = q.2

instance (s : Sequence) : Decidable (setSpec s) := by
  unfold setSpec
  infer_instance

/-- The validity rule exactly as the claim states it, used to exhibit its
divergence from the code: a run permits *exactly one* 13→1 wraparound.
State: suit, current rank, wraparound-used flag. -/
def claimRunAux : Suit → Nat → Bool → List Card → Bool
  | _, _, _, [] => true
  | su, cv, w, RegularCard su' v :: rest =>
    if su' = su ∧ v = cv + 1 then claimRunAux su v w rest
    else if su' = su ∧ w = false ∧ cv = 13 ∧ v = 1 then claimRunAux su 1 true rest
    else false
  | su, cv, w, Joker :: rest => claimRunAux su (cv + 1) w rest

/-- Run validity as worded by the claim: non-joker cards strictly increase
by 1 in rank within one suit, with exactly one 13→1 wraparound permitted;
Jokers advance the expected rank. -/
def claimRun (s : Sequence) : Bool :=
  match s.cards.dropWhile isJoker with
  | [] => true
  | RegularCard su r :: rest => claimRunAux su r false rest
  | Joker :: _ => false

/-- Sequence validity as worded by the claim (length ≥ 3, and a run with at
most one wraparound or a set). -/
def claimValid (s : Sequence) : Bool :=
  decide (3 ≤ s.cards.length) && (claimRun s || decide (setSpec s))

example : claimValid ⟨[RegularCard Club 12, RegularCard Club 13, RegularCard Club 1]⟩ = true := by decide

example : claimValid ⟨[RegularCard Club 13, RegularCard Club 1, RegularCard Club 1]⟩ = false := by decide

example : claimValid ⟨[Joker, Joker, Joker]⟩ = true := by decide

example : claimValid ⟨[RegularCard Heart 2, Joker, RegularCard Spade 2]⟩ = true := by decide

/-- The `Sequence.contains` is multiset inclusion: it holds exactly when every
card's multiplicity in `t` is at most its multiplicity in `s`. -/
theorem Sequence.contains_eq_true_iff (s t : Sequence) :
    s.contains t = true ↔ ∀ c, t.count_cards c ≤ s.count_cards c := by
  unfold Sequence.contains
  rw [List.all_eq_true]
  constructor
  · intro h c
    by_cases hc : c ∈ t.cards
    · have := h c hc
      exact of_decide_eq_true this
    · unfold Sequence.count_cards
      rw [List.count_eq_zero_of_not_mem hc]
      exact Nat.zero_le _
  · intro h c _
    exact decide_eq_true (h c)

/-- Mutual `Sequence.contains` is multiset equality. -/
theorem Sequence.contains_both_iff (s t : Sequence) :
    (s.contains t = true ∧ t.contains s = true) ↔
      ∀ c, s.count_cards c = t.count_cards c := by
  rw [Sequence.contains_eq_true_iff, Sequence.contains_eq_true_iff]
  constructor
  · intro ⟨h1, h2⟩ c
    exact Nat.le_antisymm (h2 c) (h1 c)
  · intro h
    exact ⟨fun c => (h c).ge, fun c => (h c).le⟩

/-- C8: for every `Config` with `n_decks ∈ [1,255]`, `n_jokers ∈ [0,255]`,
`n_cards_to_start ∈ [0,65535]`, any `custom_rule_jokers` and
`n_players ∈ [1,255]`, `Config.from_bytes (Config.to_bytes c) = c`, and
`to_bytes` produces exactly the 6-byte layout `n_decks, n_jokers,
n_cards_to_start` high byte, `n_cards_to_start` low byte,
`custom_rule_jokers` as 0/1, `n_players`. -/
theorem claim_C8_config_roundtrip (c : Config)
    (h1 : 1 ≤ c.n_decks) (h2 : c.n_decks ≤ 255) (h3 : c.n_jokers ≤ 255)
    (h4 : c.n_cards_to_start ≤ 65535) (h5 : 1 ≤ c.n_players) (h6 : c.n_players ≤ 255) :
    Config.from_bytes (Config.to_bytes c) = c ∧
      Config.to_bytes c
        = [c.n_decks, c.n_jokers, c.n_cards_to_start / 256, c.n_cards_to_start % 256,
           if c.custom_rule_jokers then 1 else 0, c.n_players] := by
  refine ⟨?_, rfl⟩
  obtain ⟨a, b, d, e, f⟩ := c
  cases e <;> simp [Config.to_bytes, Config.from_bytes] <;> omega

/-- C8 witness: the round trip evaluated at a concrete configuration. -/
theorem claim_C8_config_roundtrip_witness :
    Config.from_bytes (Config.to_bytes ⟨2, 4, 13, false, 2⟩) = ⟨2, 4, 13, false, 2⟩ ∧
      Config.to_bytes ⟨2, 4, 13, false, 2⟩
        = [2, 4, 13 / 256, 13 % 256, if false then 1 else 0, 2] :=
  claim_C8_config_roundtrip ⟨2, 4, 13, false, 2⟩ (by decide) (by decide) (by decide)
    (by decide) (by decide) (by decide)

/-- C6: `Sequence.contains` holds exactly when every distinct card value of
the other sequence appears with at least the same multiplicity (Jokers
counted by quantity only — they are a single card value); in particular a
sequence of two Jokers contains a sequence of one Joker but not
conversely. -/
theorem claim_C6_contains_multiset_inclusion (A B : Sequence) :
    (A.contains B = true ↔ ∀ c, B.count_cards c ≤ A.count_cards c) ∧
      Sequence.contains ⟨[Joker, Joker]⟩ ⟨[Joker]⟩ = true ∧
      Sequence.contains ⟨[Joker]⟩ ⟨[Joker, Joker]⟩ = false :=
  ⟨Sequence.contains_eq_true_iff A B, by decide, by decide⟩

/-- C1 evaluation: a well-formed one-player game state — one hand holding a
single card, name "A" (byte 65), empty deck and empty table — whose
`game_to_bytes` output `load_game` fails to decode: the hand's cards occupy
`2 * count` bytes but `load_game` consumes only `count` bytes, desyncing
every later field (here it reads the name-length byte out of the card
bytes, then a garbage deck count, and finally panics slicing the deck).
`decode(encode(x)) == x` therefore does not hold for this `GameState`. -/
theorem claim_C1_game_roundtrip_fails :
    game_to_bytes 0 ⟨[]⟩ [⟨[RegularCard Heart 1]⟩] ⟨[]⟩ ⟨1, 0, 1, false, 1⟩ [[65]]
      = [1, 0, 0, 1, 0, 1, 0, 0, 1, 1, 1, 1, 65, 0, 0] ∧
    load_game (game_to_bytes 0 ⟨[]⟩ [⟨[RegularCard Heart 1]⟩] ⟨[]⟩ ⟨1, 0, 1, false, 1⟩ [[65]])
      = none := by
  constructor
  · decide
  · decide

/-- C10: for every zero-length payload the computed chunk count
`n_buffers` is `0`, and `send_bytes_to_client` aborts on the underflowing
`u8` expression `n_buffers - 1` before writing any chunk, so a zero-length
blob cannot be sent. -/
theorem claim_C10_empty_payload_panics (bytes : List Nat) (h : bytes.length = 0) :
    n_buffers_of bytes.length = 0 ∧ send_bytes_to_client bytes = SendResult.panic := by
  rw [List.length_eq_zero] at h
  subst h
  decide

/-- C10 witness: the empty payload. -/
theorem claim_C10_empty_payload_panics_witness :
    n_buffers_of (List.length ([] : List Nat)) = 0 ∧
      send_bytes_to_client [] = SendResult.panic :=
  claim_C10_empty_payload_panics [] rfl

/-- The chunk count of `send_bytes_to_client` is the ceiling of
`len / BUFFER_SIZE`. -/
theorem n_buffers_of_eq_ceil (len : Nat) :
    n_buffers_of len = (len + BUFFER_SIZE - 1) / BUFFER_SIZE := by
  simp only [n_buffers_of, BUFFER_SIZE]
  split <;> omega

/-- Reassembling the first `n` chunks of 50 bytes and the remaining tail
recovers the whole payload. -/
theorem chunks_flatten_aux (l : List Nat) :
    ∀ n, (((List.range n).map (fun i => (l.drop (i * BUFFER_SIZE)).take BUFFER_SIZE)).flatten)
      ++ l.drop (n * BUFFER_SIZE) = l := by
  intro n
  induction n with
  | zero => simp
  | succ k ih =>
    rw [List.range_succ, List.map_append, List.flatten_append, List.append_assoc]
    simp only [List.map_cons, List.map_nil, List.flatten_cons, List.flatten_nil,
      List.append_nil]
    rw [Nat.succ_mul, List.drop_take_append_drop]
    exact ih

/-- C5 counterexample: the claim quantifies over every payload, but the
zero-length payload — which needs `N = 0` chunks and per the claim would
write the count byte `0`, no chunks, and await the acknowledgment — makes
`send_bytes_to_client` abort on the underflowing `u8` expression
`n_buffers - 1` instead of completing a transmission. -/
theorem claim_C5_counterexample_empty_payload :
    send_bytes_to_client [] = SendResult.panic ∧
      ∀ chunks, send_bytes_to_client [] ≠ SendResult.ok 0 chunks := by
  refine ⟨by decide, ?_⟩
  intro chunks h
  rw [show send_bytes_to_client [] = SendResult.panic from by decide] at h
  exact SendResult.noConfusion h

/-- C5 (amended to non-empty payloads): a payload longer than
`255 × 50` bytes is rejected with an error and nothing is written;
a non-empty payload within the limit is sent as one count byte `N` — the
number of 50-byte chunks needed, `⌈len / 50⌉` — followed by the payload
split into exactly those `N` chunks, every chunk non-empty and at most 50
bytes, all but the last exactly 50; and `get_bytes_from_client` rebuilds
exactly the original payload from the count byte and chunks and writes
back the single `0` acknowledgment byte the sender blocks on. -/
theorem claim_C5_blob_framing_roundtrip (bytes : List Nat) :
    (bytes.length > MAX_N_BUFFERS * BUFFER_SIZE → send_bytes_to_client bytes = SendResult.err) ∧
    (bytes ≠ [] → bytes.length ≤ MAX_N_BUFFERS * BUFFER_SIZE →
      ∃ chunks,
        send_bytes_to_client bytes
          = SendResult.ok ((bytes.length + BUFFER_SIZE - 1) / BUFFER_SIZE) chunks ∧
        chunks.length = (bytes.length + BUFFER_SIZE - 1) / BUFFER_SIZE ∧
        chunks.flatten = bytes ∧
        (∀ ch ∈ chunks, ch.length ≤ BUFFER_SIZE ∧ ch ≠ []) ∧
        (∀ i, i + 1 < chunks.length → (chunks.getD i []).length = BUFFER_SIZE) ∧
        get_bytes_from_client ((bytes.length + BUFFER_SIZE - 1) / BUFFER_SIZE) chunks
          = (bytes, [0])) := by
  constructor
  · intro h
    unfold send_bytes_to_client
    rw [if_pos h]
  · intro hne hle
    have hpos : 0 < bytes.length := List.length_pos.mpr hne
    have hnb := n_buffers_of_eq_ceil bytes.length
    obtain ⟨m, hm⟩ : ∃ m, n_buffers_of bytes.length = m + 1 := by
      refine ⟨n_buffers_of bytes.length - 1, ?_⟩
      have : 0 < n_buffers_of bytes.length := by
        rw [hnb]
        simp only [BUFFER_SIZE]
        omega
      omega
    have hmsend : send_bytes_to_client bytes
        = SendResult.ok (m + 1)
          ((List.range m).map (fun i => (bytes.drop (i * BUFFER_SIZE)).take BUFFER_SIZE)
            ++ [bytes.drop (m * BUFFER_SIZE)]) := by
      unfold send_bytes_to_client
      rw [if_neg (by omega), hm]
    have hmv : m + 1 = (bytes.length + BUFFER_SIZE - 1) / BUFFER_SIZE := by
      rw [← hnb, hm]
    -- arithmetic facts about the chunk boundaries, with the literal 50
    have hb : m + 1 = (bytes.length + 50 - 1) / 50 := hmv
    have hlast : m * 50 < bytes.length := by omega
    have hmid : ∀ i, i < m → i * 50 + 50 ≤ bytes.length := by
      intro i hi
      omega
    have hlast_le : bytes.length - m * 50 ≤ 50 := by omega
    refine ⟨_, hmv ▸ hmsend, ?_, ?_, ?_, ?_, ?_⟩
    · simp [hmv]
    · rw [List.flatten_append]
      simp only [List.flatten_cons, List.flatten_nil, List.append_nil]
      exact chunks_flatten_aux bytes m
    · intro ch hch
      rcases List.mem_append.mp hch with hch | hch
      · obtain ⟨i, hi, rfl⟩ := List.mem_map.mp hch
        have hi' : i < m := List.mem_range.mp hi
        have hlen : ((bytes.drop (i * BUFFER_SIZE)).take BUFFER_SIZE).length = BUFFER_SIZE := by
          rw [List.length_take, List.length_drop]
          simp only [BUFFER_SIZE]
          have := hmid i hi'
          omega
        constructor
        · rw [hlen]
        · intro hnil
          rw [hnil] at hlen
          simp only [List.length_nil] at hlen
          exact absurd hlen (by decide)
      · rw [List.mem_singleton.mp hch]
        constructor
        · rw [List.length_drop]
          simp only [BUFFER_SIZE]
          exact hlast_le
        · intro hnil
          have := congrArg List.length hnil
          rw [List.length_drop, List.length_nil] at this
          simp only [BUFFER_SIZE] at this
          omega
    · intro i hi
      rw [List.length_append, List.length_map, List.length_range] at hi
      simp only [List.length_singleton] at hi
      have hi' : i < m := by omega
      rw [List.getD_eq_getElem?_getD, List.getElem?_append_left, List.getElem?_map]
      · rw [List.getElem?_range hi']
        simp only [Option.map_some', Option.getD_some]
        rw [List.length_take, List.length_drop]
        simp only [BUFFER_SIZE]
        have := hmid i hi'
        omega
      · rw [List.length_map, List.length_range]
        exact hi'
    · unfold get_bytes_from_client
      have hlen : ((List.range m).map
          (fun i => (bytes.drop (i * BUFFER_SIZE)).take BUFFER_SIZE)
            ++ [bytes.drop (m * BUFFER_SIZE)]).length = m + 1 := by
        simp
      rw [← hmv, ← hlen, List.take_length]
      rw [List.flatten_append]
      simp only [List.flatten_cons, List.flatten_nil, List.append_nil]
      rw [chunks_flatten_aux bytes m]

/-- The `draw_card` on a sequence ending in `c` removes exactly `c`. -/
theorem Sequence.draw_card_concat (l : List Card) (c : Card) :
    Sequence.draw_card ⟨l ++ [c]⟩ = some (c, ⟨l⟩) := by
  unfold Sequence.draw_card
  rw [List.getLast?_concat, List.dropLast_concat]

/-- Appending a card strictly increases that card's multiplicity, so the
extended hand is no longer contained in the original snapshot. -/
theorem contains_concat_self_eq_false (hsr : Sequence) (l : List Card) (c : Card)
    (h : ∀ x, Sequence.count_cards ⟨l⟩ x = hsr.count_cards x) :
    hsr.contains ⟨l ++ [c]⟩ = false := by
  rw [← Bool.not_eq_true, Sequence.contains_eq_true_iff]
  intro hall
  have hc := hall c
  have hh := h c
  simp only [Sequence.count_cards, List.count_append] at hc hh
  simp at hc
  omega

/-- C2 counterexample: a hand that validly played cards away (the table
holds the played meld, the hand kept only ♣5 of the start hand
♥1 ♥2 ♥3 ♣5).  The EndTurn "nothing left uncommitted" condition holds —
menu input 4 legally ends the turn — yet SaveAndQuit (menu input 0) is
refused with "You need to pass before saving", contradicting the claimed
"EndTurn-condition or unchanged hand" disjunction. -/
theorem claim_C2_counterexample_endturn_legal_save_refused :
    player_turn_step
      ⟨[RegularCard Heart 1, RegularCard Heart 2, RegularCard Heart 3, RegularCard Club 5]⟩ false
      ⟨⟨[⟨[RegularCard Heart 1, RegularCard Heart 2, RegularCard Heart 3]⟩]⟩,
        ⟨[RegularCard Club 5]⟩, ⟨[]⟩⟩ PlayerChoice.pass
      = StepResult.finished false
        ⟨⟨[⟨[RegularCard Heart 1, RegularCard Heart 2, RegularCard Heart 3]⟩]⟩,
          ⟨[RegularCard Club 5]⟩, ⟨[]⟩⟩ ∧
    player_turn_step
      ⟨[RegularCard Heart 1, RegularCard Heart 2, RegularCard Heart 3, RegularCard Club 5]⟩ false
      ⟨⟨[⟨[RegularCard Heart 1, RegularCard Heart 2, RegularCard Heart 3]⟩]⟩,
        ⟨[RegularCard Club 5]⟩, ⟨[]⟩⟩ PlayerChoice.save
      = StepResult.cont Message.passBeforeSaving
        ⟨⟨[⟨[RegularCard Heart 1, RegularCard Heart 2, RegularCard Heart 3]⟩]⟩,
          ⟨[RegularCard Club 5]⟩, ⟨[]⟩⟩ := by
  constructor
  · decide
  · decide

/-- C2 (amended): SaveAndQuit succeeds — `player_turn` returns the save
signal `true` — exactly when the hand is multiset-identical to the
round-start snapshot (every card kept in its original quantity, order
aside); in every other case the turn loop continues with the game state
unchanged and a non-empty message. -/
theorem claim_C2_save_iff_hand_unchanged (hsr : Sequence) (cr : Bool) (st : TurnState) :
    (player_turn_step hsr cr st PlayerChoice.save = StepResult.finished true st ↔
       ∀ c, st.hand.count_cards c = hsr.count_cards c) ∧
    (player_turn_step hsr cr st PlayerChoice.save = StepResult.finished true st ∨
       ∃ m, player_turn_step hsr cr st PlayerChoice.save = StepResult.cont m st ∧
         m ≠ Message.empty) := by
  have hiff := Sequence.contains_both_iff st.hand hsr
  by_cases h1 : hsr.contains st.hand = true
  · by_cases h2 : st.hand.contains hsr = true
    · have hstep : player_turn_step hsr cr st PlayerChoice.save = StepResult.finished true st := by
        simp [player_turn_step, h1, h2]
      refine ⟨?_, Or.inl hstep⟩
      rw [hstep]
      exact ⟨fun _ => hiff.mp ⟨h2, h1⟩, fun _ => rfl⟩
    · have hstep : player_turn_step hsr cr st PlayerChoice.save
          = StepResult.cont Message.passBeforeSaving st := by
        simp [player_turn_step, h1, h2]
      refine ⟨?_, Or.inr ⟨_, hstep, by decide⟩⟩
      rw [hstep]
      constructor
      · intro h
        exact StepResult.noConfusion h
      · intro hall
        exact absurd (hiff.mpr hall).1 h2
  · have hstep : player_turn_step hsr cr st PlayerChoice.save
        = StepResult.cont Message.cantSaveUncommitted st := by
      simp [player_turn_step, h1]
    refine ⟨?_, Or.inr ⟨_, hstep, by decide⟩⟩
    rw [hstep]
    constructor
    · intro h
      exact StepResult.noConfusion h
    · intro hall
      exact absurd (hiff.mpr hall).2 h1

/-- C4 counterexample: an invalid play attempt (position 1 alone) returns
the taken card to the hand in a different order, so the hand is no longer
structurally identical to `hand_start_round` — yet PickCard then still
succeeds, because the code only compares multisets. -/
theorem claim_C4_counterexample_pick_after_reorder :
    player_turn_step ⟨[RegularCard Heart 1, RegularCard Heart 2]⟩ false
      ⟨⟨[]⟩, ⟨[RegularCard Heart 1, RegularCard Heart 2]⟩, ⟨[RegularCard Spade 9]⟩⟩
      (PlayerChoice.play [1])
      = StepResult.cont (Message.invalidSequence ⟨[RegularCard Heart 1]⟩)
        ⟨⟨[]⟩, ⟨[RegularCard Heart 2, RegularCard Heart 1]⟩, ⟨[RegularCard Spade 9]⟩⟩ ∧
    (⟨[RegularCard Heart 2, RegularCard Heart 1]⟩ : Sequence)
      ≠ ⟨[RegularCard Heart 1, RegularCard Heart 2]⟩ ∧
    player_turn_step ⟨[RegularCard Heart 1, RegularCard Heart 2]⟩ false
      ⟨⟨[]⟩, ⟨[RegularCard Heart 2, RegularCard Heart 1]⟩, ⟨[RegularCard Spade 9]⟩⟩
      PlayerChoice.pick
      = StepResult.finished false
        ⟨⟨[]⟩, ⟨[RegularCard Heart 2, RegularCard Heart 1, RegularCard Spade 9]⟩, ⟨[]⟩⟩ := by
  refine ⟨by decide, by decide, by decide⟩

/-- C4 (amended): PickCard is legal exactly when the hand is
multiset-identical to `hand_start_round` (same cards in the same
quantities; the order may differ, e.g. after an invalid play attempt) and,
under `custom_rule_jokers`, holds no Joker; a legal pick ends the turn
immediately.  With a non-empty deck the pick moves exactly the deck's top
card into the hand, and a further PickCard on the resulting hand is
rejected with a message. -/
theorem claim_C4_pick_legality (hsr : Sequence) (cr : Bool) (st : TurnState) (c : Card) :
    ((∃ st', player_turn_step hsr cr st PlayerChoice.pick = StepResult.finished false st') ↔
       ((∀ x, st.hand.count_cards x = hsr.count_cards x) ∧
         ¬(cr = true ∧ st.hand.contains_joker = true))) ∧
    ((∀ x, st.hand.count_cards x = hsr.count_cards x) →
      ¬(cr = true ∧ st.hand.contains_joker = true) →
      player_turn_step hsr cr ⟨st.table, st.hand, st.deck.add_card c⟩ PlayerChoice.pick
        = StepResult.finished false ⟨st.table, st.hand.add_card c, st.deck⟩) ∧
    ((∀ x, st.hand.count_cards x = hsr.count_cards x) →
      player_turn_step hsr cr ⟨st.table, st.hand.add_card c, st.deck⟩ PlayerChoice.pick
        = StepResult.cont Message.cantPickUncommitted
            ⟨st.table, st.hand.add_card c, st.deck⟩) := by
  refine ⟨?_, ?_, ?_⟩
  · constructor
    · intro ⟨st', hst'⟩
      by_cases h1 : hsr.contains st.hand = true
      · by_cases h2 : st.hand.contains hsr = true
        · by_cases h3 : cr = true ∧ st.hand.contains_joker = true
          · rw [show player_turn_step hsr cr st PlayerChoice.pick
                = StepResult.cont Message.jokersNeedPlay st from by
                  simp [player_turn_step, h1, h2, h3]] at hst'
            exact StepResult.noConfusion hst'
          · exact ⟨(Sequence.contains_both_iff st.hand hsr).mp ⟨h2, h1⟩, h3⟩
        · rw [show player_turn_step hsr cr st PlayerChoice.pick
              = StepResult.cont Message.cantPickAfterPlaying st from by
                simp [player_turn_step, h1, h2]] at hst'
          exact StepResult.noConfusion hst'
      · rw [show player_turn_step hsr cr st PlayerChoice.pick
            = StepResult.cont Message.cantPickUncommitted st from by
              simp [player_turn_step, h1]] at hst'
        exact StepResult.noConfusion hst'
    · intro ⟨hall, h3⟩
      obtain ⟨h2, h1⟩ := (Sequence.contains_both_iff st.hand hsr).mpr hall
      cases hp : pick_a_card st.hand st.deck with
      | none =>
        refine ⟨st, ?_⟩
        simp [player_turn_step, h1, h2, h3, hp]
      | some r =>
        obtain ⟨cc, hand', deck'⟩ := r
        refine ⟨⟨st.table, hand', deck'⟩, ?_⟩
        simp [player_turn_step, h1, h2, h3, hp]
  · intro hall h3
    obtain ⟨h2, h1⟩ := (Sequence.contains_both_iff st.hand hsr).mpr hall
    have hp : pick_a_card st.hand (st.deck.add_card c)
        = some (c, st.hand.add_card c, st.deck) := by
      unfold pick_a_card Sequence.add_card
      rw [Sequence.draw_card_concat]
    simp [player_turn_step, h1, h2, h3, hp]
  · intro hall
    have h1 : hsr.contains (Sequence.add_card st.hand c) = false := by
      unfold Sequence.add_card
      exact contains_concat_self_eq_false hsr st.hand.cards c hall
    simp [player_turn_step, h1]

/-- C4 witness: a one-card hand equal to its snapshot picks the single deck
card ♠9 and ends the turn; afterwards the grown hand is rejected. -/
theorem claim_C4_pick_legality_witness :
    player_turn_step ⟨[RegularCard Heart 1]⟩ false
      ⟨⟨[]⟩, ⟨[RegularCard Heart 1]⟩, Sequence.add_card ⟨[]⟩ (RegularCard Spade 9)⟩
      PlayerChoice.pick
      = StepResult.finished false
        ⟨⟨[]⟩, Sequence.add_card ⟨[RegularCard Heart 1]⟩ (RegularCard Spade 9), ⟨[]⟩⟩ ∧
    player_turn_step ⟨[RegularCard Heart 1]⟩ false
      ⟨⟨[]⟩, Sequence.add_card ⟨[RegularCard Heart 1]⟩ (RegularCard Spade 9), ⟨[]⟩⟩
      PlayerChoice.pick
      = StepResult.cont Message.cantPickUncommitted
        ⟨⟨[]⟩, Sequence.add_card ⟨[RegularCard Heart 1]⟩ (RegularCard Spade 9), ⟨[]⟩⟩ :=
  ⟨(claim_C4_pick_legality ⟨[RegularCard Heart 1]⟩ false
      ⟨⟨[]⟩, ⟨[RegularCard Heart 1]⟩, ⟨[]⟩⟩ (RegularCard Spade 9)).2.1
      (fun _ => rfl) (by simp),
   (claim_C4_pick_legality ⟨[RegularCard Heart 1]⟩ false
      ⟨⟨[]⟩, ⟨[RegularCard Heart 1]⟩, ⟨[]⟩⟩ (RegularCard Spade 9)).2.2
      (fun _ => rfl)⟩

/-- Splitting a positional universally-quantified property of a cons list
into the head and the shifted tail. -/
theorem forall_get_cons_iff {P : Nat → Card → Prop} (c : Card) (rest : List Card) :
    (∀ k, (hk : k < (c :: rest).length) → P k ((c :: rest).get ⟨k, hk⟩)) ↔
      (P 0 c ∧ ∀ k, (hk : k < rest.length) → P (k + 1) (rest.get ⟨k, hk⟩)) := by
  constructor
  · intro h
    refine ⟨h 0 (by simp), fun k hk => ?_⟩
    exact h (k + 1) (by simpa using Nat.succ_lt_succ hk)
  · intro ⟨h0, hs⟩ k hk
    cases k with
    | zero => exact h0
    | succ k' =>
      have hk' : k' < rest.length := by
        simpa using Nat.lt_of_succ_lt_succ hk
      exact hs k' hk'

/-- Shifting the run-acceptance predicate by one position is the same as
advancing the expected rank by one. -/
theorem runCardOk_succ (su : Suit) (cv k : Nat) (c : Card) :
    runCardOk su cv (k + 1) c ↔ runCardOk su (cv + 1) k c := by
  cases c with
  | Joker => simp [runCardOk]
  | RegularCard su' v =>
    unfold runCardOk
    constructor
    · rintro ⟨h1, h2⟩
      exact ⟨h1, by omega⟩
    · rintro ⟨h1, h2⟩
      exact ⟨h1, by omega⟩

/-- The run-checking loop, started after the first regular card with
expected counter `cv ≥ 1`, accepts exactly the positionally-characterised
runs. -/
theorem sameSuitAux_iff (su : Suit) :
    ∀ (rest : List Card) (cv : Nat), 1 ≤ cv →
      (isValidSameSuitAux su cv rest = true ↔
        ∀ k, (hk : k < rest.length) → runCardOk su cv k (rest.get ⟨k, hk⟩)) := by
  intro rest
  induction rest with
  | nil =>
    intro cv hcv
    simp [isValidSameSuitAux]
  | cons c rest' ih =>
    intro cv hcv
    rw [@forall_get_cons_iff (runCardOk su cv) c rest']
    have hshift : (∀ k, (hk : k < rest'.length) → runCardOk su cv (k + 1) (rest'.get ⟨k, hk⟩)) ↔
        ∀ k, (hk : k < rest'.length) → runCardOk su (cv + 1) k (rest'.get ⟨k, hk⟩) := by
      constructor
      · intro h k hk
        exact (runCardOk_succ su cv k _).mp (h k hk)
      · intro h k hk
        exact (runCardOk_succ su cv k _).mpr (h k hk)
    cases c with
    | Joker =>
      have hred : isValidSameSuitAux su cv (Joker :: rest') = isValidSameSuitAux su (cv + 1) rest' := by
        simp only [isValidSameSuitAux]
        rw [if_pos (by omega)]
      rw [hred, ih (cv + 1) (by omega), hshift]
      simp [runCardOk]
    | RegularCard su' v =>
      have hcv0 : ¬ cv = 0 := by omega
      by_cases hok : runCardOk su cv 0 (RegularCard su' v)
      · obtain ⟨hsu, hv⟩ := hok
        have hcond : ¬(su' ≠ su ∨ (v ≠ cv + 1 ∧ (cv < MAX_VAL ∨ v ≠ 1))) := by
          push_neg
          refine ⟨hsu, fun hne => ?_⟩
          simp only [MAX_VAL]
          rcases hv with hv | hv <;> omega
        have hred : isValidSameSuitAux su cv (RegularCard su' v :: rest')
            = isValidSameSuitAux su (cv + 1) rest' := by
          simp only [isValidSameSuitAux]
          rw [if_neg hcv0, if_neg hcond]
        rw [hred, ih (cv + 1) (by omega), hshift]
        constructor
        · intro h
          refine ⟨⟨hsu, hv⟩, h⟩
        · intro ⟨_, h⟩
          exact h
      · have hcond : su' ≠ su ∨ (v ≠ cv + 1 ∧ (cv < MAX_VAL ∨ v ≠ 1)) := by
          by_cases hsu : su' = su
          · right
            unfold runCardOk at hok
            have h2 : ¬(v = cv + 0 + 1 ∨ (13 ≤ cv + 0 ∧ v = 1)) := fun hv => hok ⟨hsu, hv⟩
            simp only [MAX_VAL]
            refine ⟨fun hv => h2 (Or.inl (by omega)), ?_⟩
            by_cases h13 : 13 ≤ cv
            · exact Or.inr (fun hv1 => h2 (Or.inr ⟨by omega, hv1⟩))
            · exact Or.inl (by omega)
          · exact Or.inl hsu
        have hred : isValidSameSuitAux su cv (RegularCard su' v :: rest') = false := by
          simp only [isValidSameSuitAux]
          rw [if_neg hcv0, if_pos hcond]
        rw [hred]
        constructor
        · intro h
          exact Bool.noConfusion h
        · intro ⟨h0, _⟩
          exact absurd h0 hok

/-- A leading Joker is ignored by the declarative run predicate. -/
theorem runSpec_cons_joker (rest : List Card) : runSpec ⟨Joker :: rest⟩ ↔ runSpec ⟨rest⟩ := by
  unfold runSpec
  simp [List.dropWhile_cons, isJoker]

/-- With a regular first card the declarative run predicate is the
positional characterisation. -/
theorem runSpec_cons_regular (su : Suit) (v : Nat) (rest : List Card) :
    runSpec ⟨RegularCard su v :: rest⟩ ↔
      ∀ k, (hk : k < rest.length) → runCardOk su v k (rest.get ⟨k, hk⟩) := by
  unfold runSpec
  simp [List.dropWhile_cons, isJoker]

/-- The source's same-suit check is exactly the declarative run predicate,
for sequences whose regular cards have positive rank (rank `0` is the
source's internal "uninitialised" sentinel, never a card rank). -/
theorem sameSuit_iff_runSpec :
    ∀ (l : List Card), (∀ su v, RegularCard su v ∈ l → 1 ≤ v) →
      ∀ cs, (isValidSameSuitAux cs 0 l = true ↔ runSpec ⟨l⟩) := by
  intro l
  induction l with
  | nil =>
    intro _ cs
    simp [isValidSameSuitAux, runSpec]
  | cons c rest ih =>
    intro h cs
    cases c with
    | Joker =>
      have hred : isValidSameSuitAux cs 0 (Joker :: rest) = isValidSameSuitAux cs 0 rest := by
        simp [isValidSameSuitAux]
      rw [hred, runSpec_cons_joker]
      exact ih (fun su v hm => h su v (List.mem_cons_of_mem _ hm)) cs
    | RegularCard su v =>
      have hv : 1 ≤ v := h su v (List.mem_cons_self _ _)
      have hred : isValidSameSuitAux cs 0 (RegularCard su v :: rest)
          = isValidSameSuitAux su v rest := by
        simp [isValidSameSuitAux]
      rw [hred, runSpec_cons_regular]
      exact sameSuitAux_iff su rest v hv

/-- The set-checking loop with a fixed common value `cv ≥ 1` and already
seen suits `suits` accepts exactly the lists whose regular cards all carry
rank `cv` and pairwise-distinct suits not yet seen. -/
theorem sameValAux_iff :
    ∀ (cards : List Card) (suits : List Suit) (cv : Nat), 1 ≤ cv →
      (isValidSameValAux suits cv cards = true ↔
        ((∀ p ∈ regulars cards, p.2 = cv) ∧ (∀ p ∈ regulars cards, p.1 ∉ suits) ∧
          ((regulars cards).map Prod.fst).Pairwise (· ≠ ·))) := by
  intro cards
  induction cards with
  | nil =>
    intro suits cv hcv
    simp [isValidSameValAux, regulars]
  | cons c rest ih =>
    intro suits cv hcv
    cases c with
    | Joker =>
      have hred : isValidSameValAux suits cv (Joker :: rest) = isValidSameValAux suits cv rest := by
        simp [isValidSameValAux]
      have hreg : regulars (Joker :: rest) = regulars rest := by
        simp [regulars]
      rw [hred, hreg]
      exact ih suits cv hcv
    | RegularCard su v =>
      have hcv0 : ¬ cv = 0 := by omega
      have hreg : regulars (RegularCard su v :: rest) = (su, v) :: regulars rest := by
        simp [regulars]
      rw [hreg]
      by_cases hcase : su ∈ suits ∨ ¬ v = cv
      · have hcond : (suits.contains su = true) ∨ ¬ v = cv := by
          rcases hcase with hc | hc
          · exact Or.inl (List.elem_eq_true_of_mem hc)
          · exact Or.inr hc
        have hred : isValidSameValAux suits cv (RegularCard su v :: rest) = false := by
          simp only [isValidSameValAux]
          rw [if_neg hcv0, if_pos hcond]
        rw [hred]
        constructor
        · intro hfalse
          exact Bool.noConfusion hfalse
        · intro ⟨hvals, hnotin, _⟩
          rcases hcase with hc | hc
          · exact absurd hc (hnotin (su, v) (List.mem_cons_self _ _))
          · exact absurd (hvals (su, v) (List.mem_cons_self _ _)) hc
      · push_neg at hcase
        obtain ⟨hsu, hveq⟩ := hcase
        have hcond : ¬((suits.contains su = true) ∨ ¬ v = cv) := by
          push_neg
          exact ⟨fun hc => hsu (List.mem_of_elem_eq_true hc), hveq⟩
        have hred : isValidSameValAux suits cv (RegularCard su v :: rest)
            = isValidSameValAux (suits ++ [su]) cv rest := by
          simp only [isValidSameValAux]
          rw [if_neg hcv0, if_neg hcond]
        rw [hred, ih (suits ++ [su]) cv hcv]
        constructor
        · intro ⟨hvals, hnotin, hpw⟩
          refine ⟨?_, ?_, ?_⟩
          · intro p hp
            rcases List.mem_cons.mp hp with rfl | hp
            · exact hveq
            · exact hvals p hp
          · intro p hp
            rcases List.mem_cons.mp hp with rfl | hp
            · exact hsu
            · intro hmem
              exact (hnotin p hp) (List.mem_append_left _ hmem)
          · rw [List.map_cons, List.pairwise_cons]
            refine ⟨?_, hpw⟩
            intro b hb
            obtain ⟨p, hp, rfl⟩ := List.mem_map.mp hb
            have := hnotin p hp
            intro heq
            exact this (List.mem_append_right _ (by rw [← heq]; exact List.mem_singleton_self _))
        · intro ⟨hvals, hnotin, hpw⟩
          rw [List.map_cons, List.pairwise_cons] at hpw
          obtain ⟨hhead, hpw⟩ := hpw
          refine ⟨?_, ?_, hpw⟩
          · intro p hp
            exact hvals p (List.mem_cons_of_mem _ hp)
          · intro p hp hmem
            rcases List.mem_append.mp hmem with hmem | hmem
            · exact (hnotin p (List.mem_cons_of_mem _ hp)) hmem
            · have hps : p.1 = su := List.mem_singleton.mp hmem
              exact hhead p.1 (List.mem_map_of_mem _ hp) hps.symm

/-- The source's same-value check is exactly the declarative set predicate,
for sequences whose regular cards have positive rank. -/
theorem sameVal_iff_setSpec :
    ∀ (l : List Card), (∀ su v, RegularCard su v ∈ l → 1 ≤ v) →
      (isValidSameValAux [] 0 l = true ↔ setSpec ⟨l⟩) := by
  intro l
  induction l with
  | nil =>
    intro _
    simp [isValidSameValAux, setSpec, regulars]
  | cons c rest ih =>
    intro h
    cases c with
    | Joker =>
      have hred : isValidSameValAux [] 0 (Joker :: rest) = isValidSameValAux [] 0 rest := by
        simp [isValidSameValAux]
      have hreg : regulars (Joker :: rest) = regulars rest := by
        simp [regulars]
      have hspec : setSpec ⟨Joker :: rest⟩ ↔ setSpec ⟨rest⟩ := by
        unfold setSpec
        rw [hreg]
      rw [hred, hspec]
      exact ih (fun su v hm => h su v (List.mem_cons_of_mem _ hm))
    | RegularCard su v =>
      have hv : 1 ≤ v := h su v (List.mem_cons_self _ _)
      have hred : isValidSameValAux [] 0 (RegularCard su v :: rest)
          = isValidSameValAux [su] v rest := by
        simp [isValidSameValAux]
      have hreg : regulars (RegularCard su v :: rest) = (su, v) :: regulars rest := by
        simp [regulars]
      rw [hred, sameValAux_iff rest [su] v hv]
      unfold setSpec
      rw [hreg]
      constructor
      · rintro ⟨hvals, hnotin, hpw⟩
        constructor
        · rw [List.map_cons, List.pairwise_cons]
          refine ⟨?_, hpw⟩
          intro b hb
          obtain ⟨p, hp, rfl⟩ := List.mem_map.mp hb
          intro heq
          exact (hnotin p hp) (List.mem_singleton.mpr heq.symm)
        · intro p hp q hq
          rcases List.mem_cons.mp hp with rfl | hp <;> rcases List.mem_cons.mp hq with rfl | hq
          · rfl
          · exact (hvals q hq).symm
          · exact hvals p hp
          · rw [hvals p hp, hvals q hq]
      · rintro ⟨hpw, heq⟩
        rw [List.map_cons, List.pairwise_cons] at hpw
        obtain ⟨hhead, hpw⟩ := hpw
        refine ⟨?_, ?_, hpw⟩
        · intro p hp
          exact heq p (List.mem_cons_of_mem _ hp) (su, v) (List.mem_cons_self _ _)
        · intro p hp hmem
          have hps : p.1 = su := List.mem_singleton.mp hmem
          exact hhead p.1 (List.mem_map_of_mem _ hp) hps.symm

/-- The `is_valid` as a Boolean combination of its two branch checks and the
length guard. -/
theorem is_valid_iff_branches (l : List Card) :
    Sequence.is_valid ⟨l⟩ = true ↔
      (3 ≤ l.length ∧ (Sequence.is_valid_sequence_same_suit ⟨l⟩ = true ∨
        Sequence.is_valid_sequence_same_val ⟨l⟩ = true)) := by
  unfold Sequence.is_valid
  by_cases hlen : l.length < 3
  · rw [if_pos hlen]
    constructor
    · intro hfalse
      exact Bool.noConfusion hfalse
    · intro ⟨h3, _⟩
      omega
  · rw [if_neg hlen]
    by_cases h1 : Sequence.is_valid_sequence_same_suit ⟨l⟩ = true
    · rw [if_pos h1]
      exact ⟨fun _ => ⟨by omega, Or.inl h1⟩, fun _ => rfl⟩
    · rw [if_neg h1]
      by_cases h2 : Sequence.is_valid_sequence_same_val ⟨l⟩ = true
      · rw [if_pos h2]
        exact ⟨fun _ => ⟨by omega, Or.inr h2⟩, fun _ => rfl⟩
      · rw [if_neg h2]
        constructor
        · intro hfalse
          exact Bool.noConfusion hfalse
        · intro ⟨_, hor⟩
          rcases hor with hor | hor
          · exact absurd hor h1
          · exact absurd hor h2

/-- C3 counterexample: the claim permits exactly one 13→1 wraparound, but
`is_valid` accepts K♣ A♣ A♣ — after a wraparound the expected counter stays
≥ 13, so further rank-1 cards keep being accepted; the claim's rule
(`claimValid`, its direct formalisation) rejects this sequence (it is
neither a one-wraparound run nor a set). -/
theorem claim_C3_counterexample_double_wraparound :
    Sequence.is_valid ⟨[RegularCard Club 13, RegularCard Club 1, RegularCard Club 1]⟩ = true ∧
      claimValid ⟨[RegularCard Club 13, RegularCard Club 1, RegularCard Club 1]⟩ = false := by
  constructor
  · decide
  · decide

/-- C3 (amended): for every sequence of genuine cards (regular ranks ≥ 1),
`is_valid` holds iff the length is at least 3 and the sequence is a run —
ignoring leading Jokers, the first regular card fixes suit and start rank
and every later card is a Joker or continues the rank count, a rank-1 card
being accepted whenever the expected predecessor rank has reached 13 (so
repeated 13→1 wraparounds are possible) — or a set — all non-joker cards
share one rank with pairwise-distinct suits, Jokers unconstrained.  In
particular all-Joker sequences of length ≥ 3 are valid (degenerate run and
set) and sequences shorter than 3 are invalid. -/
theorem claim_C3_is_valid_characterization (s : Sequence)
    (h : ∀ su v, RegularCard su v ∈ s.cards → 1 ≤ v) :
    s.is_valid = true ↔ (3 ≤ s.cards.length ∧ (runSpec s ∨ setSpec s)) := by
  obtain ⟨l⟩ := s
  rw [is_valid_iff_branches l]
  exact and_congr_right fun _ =>
    or_congr (sameSuit_iff_runSpec l h Club) (sameVal_iff_setSpec l h)

/-- C3 witness: the run ♥1 ♥2 ♥3 evaluated through the characterisation. -/
theorem claim_C3_is_valid_characterization_witness :
    Sequence.is_valid ⟨[RegularCard Heart 1, RegularCard Heart 2, RegularCard Heart 3]⟩ = true ↔
      (3 ≤ (Sequence.mk [RegularCard Heart 1, RegularCard Heart 2, RegularCard Heart 3]).cards.length ∧
        (runSpec ⟨[RegularCard Heart 1, RegularCard Heart 2, RegularCard Heart 3]⟩ ∨
          setSpec ⟨[RegularCard Heart 1, RegularCard Heart 2, RegularCard Heart 3]⟩)) :=
  claim_C3_is_valid_characterization ⟨[RegularCard Heart 1, RegularCard Heart 2, RegularCard Heart 3]⟩
    (by
      intro su v hm
      simp only [List.mem_cons, List.not_mem_nil, or_false, Card.RegularCard.injEq] at hm
      rcases hm with ⟨_, rfl⟩ | ⟨_, rfl⟩ | ⟨_, rfl⟩ <;> omega)

/-- The card multiset of a table: the total multiplicity of a card across
all melds. -/
def Table.count_cards (t : Table) (c : Card) : Nat :=
  (t.melds.map (fun m => m.count_cards c)).sum

/-- Removing the element at index `k` removes exactly one occurrence of the
card stored there. -/
theorem count_eraseIdx_get : ∀ (l : List Card) (k : Nat) (h : k < l.length) (c : Card),
    (l.eraseIdx k).count c + (if l.get ⟨k, h⟩ = c then 1 else 0) = l.count c := by
  intro l
  induction l with
  | nil =>
    intro k h c
    simp at h
  | cons a tl ih =>
    intro k h c
    cases k with
    | zero =>
      by_cases hac : a = c <;> simp [List.count_cons, hac]
    | succ k' =>
      have hk' : k' < tl.length := by
        simp only [List.length_cons] at h
        omega
      have hih := ih k' hk' c
      simp only [List.get_eq_getElem] at hih ⊢
      by_cases hac : a = c <;> simp [List.count_cons, hac] <;> omega

/-- The `take_card` removes exactly one occurrence of the returned card. -/
theorem Sequence.take_card_count (s : Sequence) (i : Nat) (c' : Card) (s' : Sequence)
    (h : s.take_card i = some (c', s')) (c : Card) :
    s'.count_cards c + (if c' = c then 1 else 0) = s.count_cards c := by
  unfold Sequence.take_card at h
  split at h
  · rename_i hrange
    injection h with h
    injection h with h1 h2
    subst h1
    subst h2
    exact count_eraseIdx_get s.cards (i - 1) (by omega) c
  · exact Option.noConfusion h

/-- The `add_card` adds exactly one occurrence of the appended card. -/
theorem Sequence.count_cards_add_card (s : Sequence) (c' c : Card) :
    (s.add_card c').count_cards c = s.count_cards c + if c' = c then 1 else 0 := by
  unfold Sequence.add_card Sequence.count_cards
  rw [List.count_append]
  by_cases h : c' = c
  · subst h
    simp
  · simp [List.count_cons, Ne.symm h, h]

/-- The `merge` adds the multiplicities of the merged sequence. -/
theorem Sequence.count_cards_merge (s t : Sequence) (c : Card) :
    (s.merge t).count_cards c = s.count_cards c + t.count_cards c := by
  unfold Sequence.merge Sequence.count_cards
  rw [List.count_append, List.count_reverse]

/-- The `Table.add` adds the meld's multiplicities to the table's. -/
theorem Table.count_cards_add (t : Table) (s : Sequence) (c : Card) :
    (t.add s).count_cards c = t.count_cards c + s.count_cards c := by
  unfold Table.add Table.count_cards
  simp

/-- The position-resolution loop moves cards between the hand and the
collected sequence without creating or destroying any. -/
theorem play_loop_count : ∀ (ps : List Nat) (hand seq : Sequence) (seq_i : List Nat) (c : Card),
    (play_loop hand seq seq_i ps).2.count_cards c + (play_loop hand seq seq_i ps).1.count_cards c
      = hand.count_cards c + seq.count_cards c := by
  intro ps
  induction ps with
  | nil =>
    intro hand seq seq_i c
    simp [play_loop, Nat.add_comm]
  | cons n rest ih =>
    intro hand seq seq_i c
    rw [play_loop]
    cases htc : hand.take_card (n - (seq_i.filter (· < n)).length) with
    | none =>
      simp only
      exact ih hand seq seq_i c
    | some r =>
      obtain ⟨cc, hand2⟩ := r
      simp only
      rw [ih hand2 (seq.add_card cc) (seq_i ++ [n]) c]
      have h1 := Sequence.take_card_count hand _ cc hand2 htc c
      rw [Sequence.count_cards_add_card]
      omega

/-- C9: `play_sequence` conserves cards — for every hand, table and input,
the combined multiset of the returned hand and table equals the combined
multiset before the call: the cards taken from the hand are either all
committed to the table as one new meld or all merged back into the hand. -/
theorem claim_C9_play_sequence_conserves_cards (hand : Sequence) (table : Table)
    (ps : List Nat) (c : Card) :
    (play_sequence hand table ps).2.1.count_cards c
        + (play_sequence hand table ps).2.2.count_cards c
      = hand.count_cards c + table.count_cards c := by
  unfold play_sequence
  rcases hpl : play_loop hand Sequence.new [] ps with ⟨seq, hand'⟩
  have hinv := play_loop_count ps hand Sequence.new [] c
  rw [hpl] at hinv
  simp only at hinv
  have hnew : Sequence.count_cards Sequence.new c = 0 := rfl
  by_cases hv : seq.is_valid = true
  · simp only [hv, if_pos]
    simp only [Table.count_cards_add]
    omega
  · simp only [Bool.not_eq_true] at hv
    simp only [hv]
    simp only [Bool.false_eq_true, if_false]
    rw [Sequence.count_cards_merge]
    omega

/-- C5 witness: a 55-byte payload is framed as count byte 2, one full
50-byte chunk and one 5-byte chunk, and is reconstructed exactly. -/
theorem claim_C5_blob_framing_roundtrip_witness :
    ∃ chunks,
      send_bytes_to_client (List.replicate 55 7)
        = SendResult.ok (((List.replicate 55 7 : List Nat).length + BUFFER_SIZE - 1) / BUFFER_SIZE) chunks ∧
      chunks.length = ((List.replicate 55 7 : List Nat).length + BUFFER_SIZE - 1) / BUFFER_SIZE ∧
      chunks.flatten = List.replicate 55 7 ∧
      (∀ ch ∈ chunks, ch.length ≤ BUFFER_SIZE ∧ ch ≠ []) ∧
      (∀ i, i + 1 < chunks.length → (chunks.getD i []).length = BUFFER_SIZE) ∧
      get_bytes_from_client (((List.replicate 55 7 : List Nat).length + BUFFER_SIZE - 1) / BUFFER_SIZE) chunks
        = (List.replicate 55 7, [0]) :=
  (claim_C5_blob_framing_roundtrip (List.replicate 55 7)).2 (by decide) (by decide)


/-- The invariant driving termination of `ensure_names_are_different`: the
name at index `k` has length at most `B + k`.  It holds initially with
`B = maxLen`, and is preserved because index `j` is only renamed when its
name equals the strictly-earlier index `i`'s name. -/
def namesInv (B : Nat) (l : List (List Char)) : Prop :=
  ∀ k, k < l.length → (l.getD k []).length ≤ B + k

/-- The `getD` after `set` at the written index. -/
theorem getD_set_self (l : List (List Char)) (j : Nat) (x : List Char) (h : j < l.length) :
    (l.set j x).getD j [] = x := by
  rw [List.getD_eq_getElem?_getD, List.getElem?_set_self]
  · simp
  · exact h

/-- The `getD` after `set` at another index. -/
theorem getD_set_ne (l : List (List Char)) (j k : Nat) (x : List Char) (h : j ≠ k) :
    (l.set j x).getD k [] = l.getD k [] := by
  rw [List.getD_eq_getElem?_getD, List.getElem?_set_ne h, ← List.getD_eq_getElem?_getD]

/-- The `getD` through `map List.length`. -/
theorem getD_map_length (l : List (List Char)) (j : Nat) (h : j < l.length) :
    (l.map List.length).getD j 0 = (l.getD j []).length := by
  rw [List.getD_eq_getElem?_getD, List.getElem?_map, List.getElem?_eq_getElem h,
    List.getD_eq_getElem?_getD, List.getElem?_eq_getElem h]
  simp

/-- Updating one entry of a `Nat` list changes the sum by the difference of
the entries, stated additively. -/
theorem sum_set_nat : ∀ (s : List Nat) (j a : Nat), j < s.length →
    (s.set j a).sum + s.getD j 0 = s.sum + a := by
  intro s
  induction s with
  | nil =>
    intro j a h
    simp at h
  | cons b tl ih =>
    intro j a h
    cases j with
    | zero =>
      simp [List.set, List.getD]
      omega
    | succ j' =>
      have h' : j' < tl.length := by
        simp only [List.length_cons] at h
        omega
      have := ih j' a h'
      simp only [List.set, List.sum_cons, List.getD_cons_succ]
      omega

/-- Renaming index `j` (appending one underscore) increases the total name
length by exactly one. -/
theorem lenSum_set_append (l : List (List Char)) (j : Nat) (h : j < l.length) :
    lenSum (l.set j (l.getD j [] ++ ['_'])) = lenSum l + 1 := by
  unfold lenSum
  rw [List.map_set]
  have hs := sum_set_nat (l.map List.length) j ((l.getD j [] ++ ['_']).length)
    (by rw [List.length_map]; exact h)
  rw [getD_map_length l j h] at hs
  simp only [List.length_append, List.length_singleton] at hs ⊢
  omega

/-- Every name is at most `maxLen` long. -/
theorem getD_length_le_maxLen (l : List (List Char)) (k : Nat) (h : k < l.length) :
    (l.getD k []).length ≤ maxLen l := by
  have hmem : l.getD k [] ∈ l := by
    rw [List.getD_eq_getElem?_getD, List.getElem?_eq_getElem h]
    exact List.getElem_mem h
  have hmem2 : (l.getD k []).length ∈ l.map List.length := List.mem_map_of_mem _ hmem
  unfold maxLen
  generalize l.map List.length = s at hmem2 ⊢
  induction s with
  | nil => exact absurd hmem2 (List.not_mem_nil _)
  | cons a tl ih =>
    rcases List.mem_cons.mp hmem2 with heq | hmem2
    · rw [heq]
      exact Nat.le_max_left _ _
    · exact Nat.le_trans (ih hmem2) (Nat.le_max_right _ _)

/-- Under the invariant the total name length is bounded by `boundSum`. -/
theorem lenSum_le_boundSum : ∀ (l : List (List Char)) (B : Nat), namesInv B l →
    lenSum l ≤ boundSum B l.length := by
  intro l
  induction l with
  | nil =>
    intro B _
    simp [lenSum, boundSum]
  | cons a tl ih =>
    intro B hinv
    have h0 : a.length ≤ B := by
      have := hinv 0 (by simp)
      simpa using this
    have htl : namesInv (B + 1) tl := by
      intro k hk
      have := hinv (k + 1) (by simp only [List.length_cons]; omega)
      simp only [List.getD_cons_succ] at this
      omega
    have := ih (B + 1) htl
    simp only [lenSum, List.map_cons, List.sum_cons, List.length_cons, boundSum]
    unfold lenSum at this
    omega

/-- Folding `passStep` over a list of index pairs (the flattened double
loop of `ensure_names_are_different`). -/
def runPairs (pairs : List (Nat × Nat)) (p : List (List Char) × Bool) :
    List (List Char) × Bool :=
  pairs.foldl (fun acc ij => passStep ij.1 ij.2 acc) p

/-- The `renamePass` is `runPairs` over the double loop's pairs, started with
the change flag reset. -/
theorem renamePass_eq_runPairs (names : List (List Char)) :
    renamePass names = runPairs (passPairs names.length) (names, false) := rfl

/-- One full fold of `passStep` over index pairs `(i, j)` with `i < j < n`:
the length is preserved, the invariant is maintained, the total name
length only grows — strictly when the change flag got raised — the flag is
monotone in the sense that a fold ending with the flag still `false`
changed nothing and certifies every checked pair distinct; every name is
extended by underscores only; and every modified name collided, modulo
appended underscores, with a name at a strictly smaller index. -/
theorem runPairs_spec (B : Nat) :
    ∀ (pairs : List (Nat × Nat)) (p : List (List Char) × Bool),
      (∀ q ∈ pairs, q.1 < q.2 ∧ q.2 < p.1.length) → namesInv B p.1 →
      (runPairs pairs p).1.length = p.1.length ∧
      namesInv B (runPairs pairs p).1 ∧
      lenSum p.1 ≤ lenSum (runPairs pairs p).1 ∧
      (p.2 = false → (runPairs pairs p).2 = true →
        lenSum p.1 + 1 ≤ lenSum (runPairs pairs p).1) ∧
      ((runPairs pairs p).2 = false →
        (runPairs pairs p = p ∧ ∀ q ∈ pairs, p.1.getD q.2 [] ≠ p.1.getD q.1 [])) ∧
      (∀ k, ∃ m, (runPairs pairs p).1.getD k [] = p.1.getD k [] ++ List.replicate m '_') ∧
      (∀ k, (runPairs pairs p).1.getD k [] ≠ p.1.getD k [] →
        ∃ i a b, i < k ∧ p.1.getD k [] ++ List.replicate a '_'
          = p.1.getD i [] ++ List.replicate b '_') := by
  intro pairs
  induction pairs with
  | nil =>
    intro p _ hinv
    refine ⟨rfl, hinv, Nat.le_refl _, ?_, ?_, ?_, ?_⟩
    · intro h1 h2
      rw [show (runPairs [] p).2 = p.2 from rfl, h1] at h2
      exact Bool.noConfusion h2
    · intro _
      exact ⟨rfl, fun q hq => absurd hq (List.not_mem_nil q)⟩
    · intro k
      refine ⟨0, ?_⟩
      rw [show runPairs [] p = p from rfl]
      simp
    · intro k hk
      exact absurd rfl hk
  | cons q rest ih =>
    intro p hb hinv
    obtain ⟨hij, hjlen⟩ := hb q (List.mem_cons_self _ _)
    have hilen : q.1 < p.1.length := Nat.lt_trans hij hjlen
    have hrw : runPairs (q :: rest) p = runPairs rest (passStep q.1 q.2 p) := rfl
    by_cases hfire : p.1.getD q.2 [] = p.1.getD q.1 []
    · -- the rename fires: names[j] gets an underscore, the flag is raised
      have hstep : passStep q.1 q.2 p = (p.1.set q.2 (p.1.getD q.2 [] ++ ['_']), true) := by
        unfold passStep
        rw [if_pos hfire]
      have hs1 : (passStep q.1 q.2 p).1 = p.1.set q.2 (p.1.getD q.2 [] ++ ['_']) := by
        rw [hstep]
      have hs2 : (passStep q.1 q.2 p).2 = true := by rw [hstep]
      have hslen : (passStep q.1 q.2 p).1.length = p.1.length := by
        rw [hs1]
        simp
      have hgetj : (passStep q.1 q.2 p).1.getD q.2 [] = p.1.getD q.2 [] ++ ['_'] := by
        rw [hs1]
        exact getD_set_self _ _ _ hjlen
      have hgetk : ∀ k, k ≠ q.2 → (passStep q.1 q.2 p).1.getD k [] = p.1.getD k [] := by
        intro k hk
        rw [hs1]
        exact getD_set_ne _ _ _ _ (fun h => hk h.symm)
      have hsext : ∀ k, ∃ m, (passStep q.1 q.2 p).1.getD k []
          = p.1.getD k [] ++ List.replicate m '_' := by
        intro k
        by_cases hk : k = q.2
        · subst hk
          exact ⟨1, hgetj⟩
        · exact ⟨0, by rw [hgetk k hk]; simp⟩
      have hinv' : namesInv B (passStep q.1 q.2 p).1 := by
        intro k hk
        rw [hslen] at hk
        by_cases hkj : k = q.2
        · subst hkj
          rw [hgetj]
          have hi := hinv q.1 hilen
          have hlenij : (p.1.getD q.2 []).length = (p.1.getD q.1 []).length := by rw [hfire]
          simp only [List.length_append, List.length_singleton]
          omega
        · rw [hgetk k hkj]
          exact hinv k hk
      have hlinc : lenSum (passStep q.1 q.2 p).1 = lenSum p.1 + 1 := by
        rw [hs1]
        exact lenSum_set_append p.1 q.2 hjlen
      have hb' : ∀ r ∈ rest, r.1 < r.2 ∧ r.2 < (passStep q.1 q.2 p).1.length := by
        intro r hr
        rw [hslen]
        exact hb r (List.mem_cons_of_mem _ hr)
      obtain ⟨c1, c2, c3, c4, c5, c6, c7⟩ := ih (passStep q.1 q.2 p) hb' hinv'
      rw [hrw]
      refine ⟨?_, c2, ?_, ?_, ?_, ?_, ?_⟩
      · rw [c1, hslen]
      · omega
      · intro _ _
        omega
      · intro hflag
        have hr := (c5 hflag).1
        rw [hr, hs2] at hflag
        exact Bool.noConfusion hflag
      · intro k
        obtain ⟨m, hm⟩ := c6 k
        obtain ⟨m', hm'⟩ := hsext k
        refine ⟨m' + m, ?_⟩
        rw [hm, hm', List.append_assoc, ← List.replicate_add]
      · intro k hne
        by_cases hks : (passStep q.1 q.2 p).1.getD k [] = p.1.getD k []
        · have hne' : (runPairs rest (passStep q.1 q.2 p)).1.getD k []
              ≠ (passStep q.1 q.2 p).1.getD k [] := by
            rw [hks]
            exact hne
          obtain ⟨i, a, b, hik, heq⟩ := c7 k hne'
          obtain ⟨mi, hmi⟩ := hsext i
          refine ⟨i, a, mi + b, hik, ?_⟩
          rw [← hks, heq, hmi, List.append_assoc, ← List.replicate_add]
        · have hkj : k = q.2 := by
            by_contra hkj
            exact hks (hgetk k hkj)
          subst hkj
          exact ⟨q.1, 0, 0, hij, by simpa using hfire⟩
    · -- no rename: the state is returned unchanged
      have hstep : passStep q.1 q.2 p = p := by
        unfold passStep
        rw [if_neg hfire]
      rw [hrw, hstep]
      obtain ⟨c1, c2, c3, c4, c5, c6, c7⟩ :=
        ih p (fun r hr => hb r (List.mem_cons_of_mem _ hr)) hinv
      refine ⟨c1, c2, c3, c4, ?_, c6, c7⟩
      intro hflag
      obtain ⟨heq, hdist⟩ := c5 hflag
      refine ⟨heq, ?_⟩
      intro r hr
      rcases List.mem_cons.mp hr with rfl | hr
      · exact hfire
      · exact hdist r hr

/-- If no pair collides, the fold changes nothing. -/
theorem runPairs_no_fire : ∀ (pairs : List (Nat × Nat)) (p : List (List Char) × Bool),
    (∀ q ∈ pairs, p.1.getD q.2 [] ≠ p.1.getD q.1 []) → runPairs pairs p = p := by
  intro pairs
  induction pairs with
  | nil =>
    intro p _
    rfl
  | cons q rest ih =>
    intro p h
    have hstep : passStep q.1 q.2 p = p := by
      unfold passStep
      rw [if_neg (h q (List.mem_cons_self _ _))]
    rw [show runPairs (q :: rest) p = runPairs rest (passStep q.1 q.2 p) from rfl, hstep]
    exact ih p (fun r hr => h r (List.mem_cons_of_mem _ hr))

/-- The pairs visited by the double loop are exactly those with
`i < j < n`. -/
theorem mem_passPairs (n i j : Nat) : (i, j) ∈ passPairs n ↔ (i < j ∧ j < n) := by
  unfold passPairs
  rw [List.mem_flatMap]
  constructor
  · rintro ⟨a, ha, hm⟩
    obtain ⟨b, hb, heq⟩ := List.mem_map.mp hm
    injection heq with h1 h2
    subst h1
    subst h2
    rw [List.mem_range'_1] at hb
    rw [List.mem_range] at ha
    omega
  · rintro ⟨hij, hjn⟩
    refine ⟨i, List.mem_range.mpr (by omega), ?_⟩
    refine List.mem_map.mpr ⟨j, ?_, rfl⟩
    rw [List.mem_range'_1]
    omega

/-- The `getD` agrees with `getElem` inside the list. -/
theorem getD_eq_getElem_names (names : List (List Char)) (k : Nat) (hk : k < names.length) :
    names.getD k [] = names[k] := by
  rw [List.getD_eq_getElem?_getD, List.getElem?_eq_getElem hk]
  rfl

/-- The fueled `while cont` loop of `ensure_names_are_different` converges
— given enough fuel — to a list of pairwise-distinct names, each an
underscore-extension of the original, modified names having collided
(modulo underscores) with an earlier name. -/
theorem ensureLoop_spec (B : Nat) :
    ∀ (fuel : Nat) (names : List (List Char)), namesInv B names →
      boundSum B names.length < fuel + lenSum names →
      ∃ res, ensureLoop fuel names = some res ∧
        res.length = names.length ∧
        List.Pairwise (· ≠ ·) res ∧
        (∀ k, ∃ m, res.getD k [] = names.getD k [] ++ List.replicate m '_') ∧
        (∀ k, res.getD k [] ≠ names.getD k [] →
          ∃ i a b, i < k ∧ names.getD k [] ++ List.replicate a '_'
            = names.getD i [] ++ List.replicate b '_') := by
  intro fuel
  induction fuel with
  | zero =>
    intro names hinv hlt
    have := lenSum_le_boundSum names B hinv
    omega
  | succ f ih =>
    intro names hinv hlt
    have hpb : ∀ q ∈ passPairs names.length, q.1 < q.2 ∧ q.2 < (names, false).1.length := by
      intro q hq
      exact (mem_passPairs names.length q.1 q.2).mp hq
    rcases hrp : renamePass names with ⟨ns, cont⟩
    have hrp' : runPairs (passPairs names.length) (names, false) = (ns, cont) := by
      rw [← renamePass_eq_runPairs, hrp]
    obtain ⟨c1, c2, c3, c4, c5, c6, c7⟩ :=
      runPairs_spec B (passPairs names.length) (names, false) hpb hinv
    rw [hrp'] at c1 c2 c3 c4 c5 c6 c7
    have hloop : ensureLoop (f + 1) names = if cont then ensureLoop f ns else some ns := by
      simp only [ensureLoop, hrp]
    cases cont with
    | false =>
      have hc5 := c5 rfl
      have hns : ns = names := congrArg Prod.fst hc5.1
      have hdist := hc5.2
      refine ⟨ns, by rw [hloop]; simp, by rw [hns], ?_, c6, c7⟩
      rw [hns]
      rw [List.pairwise_iff_getElem]
      intro i j hi hj hij
      have hmem : (i, j) ∈ passPairs names.length := (mem_passPairs names.length i j).mpr ⟨hij, hj⟩
      have := hdist (i, j) hmem
      rw [getD_eq_getElem_names names j hj, getD_eq_getElem_names names i hi] at this
      exact fun h => this (h.symm)
    | true =>
      have hinc : lenSum names + 1 ≤ lenSum ns := c4 rfl rfl
      have c1' : ns.length = names.length := c1
      have hbound : boundSum B ns.length < f + lenSum ns := by
        rw [c1']
        omega
      obtain ⟨res, hres, hlen, hpw, hext, hmod⟩ := ih ns c2 hbound
      refine ⟨res, by rw [hloop]; simpa using hres, by rw [hlen, c1'], hpw, ?_, ?_⟩
      · intro k
        obtain ⟨m, hm⟩ := hext k
        obtain ⟨m', hm'⟩ := c6 k
        refine ⟨m' + m, ?_⟩
        rw [hm, hm', List.append_assoc, ← List.replicate_add]
      · intro k hne
        by_cases h1 : ns.getD k [] = names.getD k []
        · have hne' : res.getD k [] ≠ ns.getD k [] := by
            rw [h1]
            exact hne
          obtain ⟨i, a, b, hik, heq⟩ := hmod k hne'
          obtain ⟨mi, hmi⟩ := c6 i
          refine ⟨i, a, mi + b, hik, ?_⟩
          rw [← h1, heq, hmi, List.append_assoc, ← List.replicate_add]
        · exact c7 k h1

/-- C7: for every list of player names, `ensure_names_are_different`
terminates (the fueled loop returns a result), the resulting names are
pairwise distinct, each resulting name is the corresponding original name
with zero or more underscores appended, every modified name had collided —
modulo appended underscores — with a name at a smaller index, and an
already collision-free list is returned unchanged. -/
theorem claim_C7_ensure_names_terminates (names : List (List Char)) :
    ∃ res, ensure_names_are_different names = some res ∧
      res.length = names.length ∧
      List.Pairwise (· ≠ ·) res ∧
      (∀ k, ∃ m, res.getD k [] = names.getD k [] ++ List.replicate m '_') ∧
      (∀ k, res.getD k [] ≠ names.getD k [] →
        ∃ i a b, i < k ∧ names.getD k [] ++ List.replicate a '_'
          = names.getD i [] ++ List.replicate b '_') ∧
      (List.Pairwise (· ≠ ·) names → res = names) := by
  have hinv : namesInv (maxLen names) names := by
    intro k hk
    have := getD_length_le_maxLen names k hk
    omega
  have hlt : boundSum (maxLen names) names.length < ensureFuel names + lenSum names := by
    unfold ensureFuel
    omega
  obtain ⟨res, hres, hlen, hpw, hext, hmod⟩ :=
    ensureLoop_spec (maxLen names) (ensureFuel names) names hinv hlt
  refine ⟨res, hres, hlen, hpw, hext, hmod, ?_⟩
  intro hdist
  have hfire : ∀ q ∈ passPairs names.length, names.getD q.2 [] ≠ names.getD q.1 [] := by
    intro q hq hequal
    obtain ⟨hij, hjn⟩ := (mem_passPairs names.length q.1 q.2).mp hq
    have hin : q.1 < names.length := Nat.lt_trans hij hjn
    have := List.pairwise_iff_getElem.mp hdist q.1 q.2 hin hjn hij
    rw [getD_eq_getElem_names names q.2 hjn, getD_eq_getElem_names names q.1 hin] at hequal
    exact this hequal.symm
  have hpass : renamePass names = (names, false) := by
    rw [renamePass_eq_runPairs]
    exact runPairs_no_fire _ _ hfire
  have hfix : ensureLoop (ensureFuel names) names = some names := by
    obtain ⟨f, hf⟩ : ∃ f, ensureFuel names = f + 1 :=
      ⟨boundSum (maxLen names) names.length, rfl⟩
    rw [hf]
    simp only [ensureLoop, hpass]
    rfl
  have hres' : ensureLoop (ensureFuel names) names = some res := hres
  rw [hfix] at hres'
  injection hres' with h
  exact h.symm
